import Mathlib

/-!
Shallow embedding of the halligalli-server game server (Go sources under
src/) for checking the natural-language specification against the code.

Each definition mirrors one Go function or data structure; the file comments
name the source location.  Card counts are modelled as `Nat` (the server
only ever decrements a hand it has checked to be positive, so hands and
open-card piles are non-negative in every reachable state); values that use
the sentinel `-1` (face-up fruit index and fruit count) are modelled as
`Int`.  The process-wide random source is modelled as an explicit choice
function `Nat → Nat` passed to the functions that consume it.
-/

namespace HalliGalli

/-! ### Configuration constants (src/config/game_config.go) -/

def MaxRooms : Nat := 6

def MaxPlayers : Nat := 8

def MinPlayers : Nat := 2

def BellRingingFruitCount : Nat := 5

/-- Card reveal interval in seconds (`CardOpenInterval = 2`). -/
def CardOpenInterval : Nat := 2

def StartingCards : Nat := 10

def GameTimeLimit : Nat := 120

def EmotionCooldown : Nat := 2

/-! ### Room state (src/socket/handler.go, `type Room`)

Only the fields the claims touch are embedded; connection handles, timers
and locks are operational details: timers appear as the intervals the code
arms them with, and lock-protected mutation appears as pure state passing. -/

structure RoomS where
  id : Int
  players : List String
  playerCards : List Nat
  openCards : List Nat
  publicFruitIndexes : List Int
  publicFruitCounts : List Int
  fruitBellCount : Int
  fruitVariation : Nat
  gameTempo : Int
  isGameStarted : Bool
  isCardGameStarted : Bool
  bellRung : Bool
  isTimeExpired : Bool
  currentPlayerIndex : Nat
  playerIndexes : List (String × Nat)
deriving Repr, DecidableEq

/-! ### Per-seat accessors (src/socket/handler.go lines 1002-1042) -/

/-- Go method `Room.GetPlayerCardCount`: returns `0` when the index is out of range,
otherwise the seat's hand count. -/
def GetPlayerCardCount (r : RoomS) (playerIndex : Int) : Nat :=
  if playerIndex < 0 ∨ (r.playerCards.length : Int) ≤ playerIndex then 0
  else r.playerCards.getD playerIndex.toNat 0

/-- Go method `Room.SetPlayerCardCount`: writes only when the index is in range. -/
def SetPlayerCardCount (r : RoomS) (playerIndex : Int) (cardCount : Nat) : RoomS :=
  if 0 ≤ playerIndex ∧ playerIndex < (r.playerCards.length : Int) then
    { r with playerCards := r.playerCards.set playerIndex.toNat cardCount }
  else r

/-- Go method `Room.GetPublicFruitIndex`: `-1` when the index is out of range. -/
def GetPublicFruitIndex (r : RoomS) (playerIndex : Int) : Int :=
  if playerIndex < 0 ∨ (r.publicFruitIndexes.length : Int) ≤ playerIndex then -1
  else r.publicFruitIndexes.getD playerIndex.toNat 0

/-- Go method `Room.GetPublicFruitCount`: `-1` when the index is out of range. -/
def GetPublicFruitCount (r : RoomS) (playerIndex : Int) : Int :=
  if playerIndex < 0 ∨ (r.publicFruitCounts.length : Int) ≤ playerIndex then -1
  else r.publicFruitCounts.getD playerIndex.toNat 0

/-! ### Reveal cadence (src/socket/handler.go lines 1412-1425, 2472-2488) -/

/-- Go function `getGameTempoInterval`, in milliseconds. -/
def getGameTempoIntervalMs (gameTempo : Int) : Nat :=
  if gameTempo = 0 then 3000
  else if gameTempo = 1 then 2000
  else if gameTempo = 2 then 1500
  else if gameTempo = 3 then 1000
  else 3000

/-- The interval `resetCardTimer` arms the reveal timer with after a bell:
`time.Duration(config.CardOpenInterval) * time.Second`, in milliseconds. -/
def resetCardTimerIntervalMs : Nat := CardOpenInterval * 1000

/-! ### Event fan-out (src/socket/handler.go lines 988-997, 1508-1516,
1600-1608, 1635-1643, 1730-1738, 2399-2407)

Every game-event broadcast loop iterates over all connected clients and
sends to those with `IsInRoom` set, without comparing `RoomID` with the
emitting room (unlike `notifyPlayerCountChanged`, line 931, which does
check `client.RoomID == room.ID`). -/

structure ClientS where
  id : String
  isInRoom : Bool
  roomID : Int
deriving Repr, DecidableEq

/-- The set of clients a game event (ReadyGame, OpenCard, BellCorrect,
BellWrong, Emotion, EndGame) is sent to: the loop body is
`for c := range h.clients { if c.IsInRoom { send } }`. -/
def gameEventRecipients (clients : List ClientS) : List ClientS :=
  clients.filter (fun c => c.isInRoom)

/-- The set of clients `notifyPlayerCountChanged` sends to (line 931):
`if client.IsInRoom && client.RoomID == room.ID`. -/
def playerCountChangedRecipients (clients : List ClientS) (roomId : Int) :
    List ClientS :=
  clients.filter (fun c => c.isInRoom && c.roomID = roomId)

/-! ### Frame validation (src/socket/packet.go lines 100-130,
src/socket/handler.go lines 542-585) -/

/-- An inbound frame after JSON decoding: its numeric signal and whether the
`data` field was present and non-null. -/
structure Frame where
  signal : Int
  hasData : Bool
deriving Repr, DecidableEq

/-- The recognised inbound signals enumerated in `ValidateRequestPacket`
(src/socket/packet.go lines 107-118). -/
def validRequestSignals : List Int :=
  [1, 1001, 1002, 1003, 1011, 2001, 2004, 4000, 4001, 1004]

/-- Go function `ValidateRequestPacket`: `none` models a returned error. -/
def ValidateRequestPacket (f : Frame) : Option Frame :=
  if ¬ (validRequestSignals.contains f.signal) then none
  else if f.hasData = false then none
  else some f

/-- An outbound response envelope: signal, code, and whether `data` is the
empty JSON object.  `NewErrorResponse` (src/socket/packet.go line 79) always
sets `data` to the empty object and `code` to 400. -/
structure ResponseS where
  signal : Int
  code : Int
  dataIsEmptyObject : Bool
deriving Repr, DecidableEq

/-- Go function `NewErrorResponse(requestSignal, message)`: the message is only logged,
never sent; the reply carries the echoed signal, an empty object, 400. -/
def NewErrorResponse (requestSignal : Int) : ResponseS :=
  ⟨requestSignal, 400, true⟩

/-- Outcome of `handleMessage` dispatch on one inbound frame. -/
inductive HandleOutcome where
  | handled : Int → HandleOutcome
  | errorReply : ResponseS → HandleOutcome
deriving Repr, DecidableEq

/-- Go function `handleMessage` (src/socket/handler.go lines 542-585): validation
failure sends `NewErrorResponse` with the signal extracted from the raw
frame; success dispatches to the handler registered for the signal. -/
def handleMessage (f : Frame) : HandleOutcome :=
  match ValidateRequestPacket f with
  | none => .errorReply (NewErrorResponse f.signal)
  | some r => .handled r.signal

/-! ### Room id assignment (src/socket/handler.go lines 2006-2014)

`newRoomID := 1; for id := range h.rooms { if id >= newRoomID { newRoomID =
id + 1 } }`.  Go map iteration order is unspecified, so the fold is stated
over an arbitrary list of the existing ids. -/

def newRoomIDFold (ids : List Int) : Int :=
  ids.foldl (fun acc id => if acc ≤ id then id + 1 else acc) 1

/-! ### Room creation (src/socket/handler.go lines 1888-2082) -/

structure CreateRoomSettings where
  roomName : String
  maxPlayerCount : Int
  fruitVariation : Int
  fruitCount : Int
  speed : Int
deriving Repr, DecidableEq

inductive CreateRoomResult where
  | errorReply : ResponseS → CreateRoomResult
  | created : Int → CreateRoomResult
deriving Repr, DecidableEq

/-- Go function `handleCreateRoom`, after the per-field JSON extraction: the
in-room guard, the five range checks (lines 1980-2000), then id assignment
and room registration (lines 2006-2031).  The function contains no check of
the number of existing rooms against `config.MaxRooms`. -/
def handleCreateRoom (clientInRoom : Bool) (existingRoomIds : List Int)
    (s : CreateRoomSettings) : CreateRoomResult :=
  if clientInRoom then .errorReply (NewErrorResponse 1004)
  else if s.roomName = "" then .errorReply (NewErrorResponse 1004)
  else if s.maxPlayerCount < 2 ∨ 8 < s.maxPlayerCount then
    .errorReply (NewErrorResponse 1004)
  else if s.fruitVariation < 2 ∨ 6 < s.fruitVariation then
    .errorReply (NewErrorResponse 1004)
  else if s.fruitCount < 3 ∨ 8 < s.fruitCount then
    .errorReply (NewErrorResponse 1004)
  else if s.speed < 0 ∨ 3 < s.speed then
    .errorReply (NewErrorResponse 1004)
  else .created (newRoomIDFold existingRoomIds)

/-! ### Bell-time check (src/socket/handler.go lines 1058-1083)

Go builds `fruitCounts := make(map[int]int)` and adds
`publicFruitCounts[i]` to the entry for `publicFruitIndexes[i]`, skipping
seats whose index is `-1`; the map is embedded as an association list (Go
map iteration order does not matter, since the final check is a disjunction
over the values). -/

/-- One `fruitCounts[fruitIndex] += ...` update on the association list. -/
def bumpAssoc (m : List (Int × Int)) (k v : Int) : List (Int × Int) :=
  match m with
  | [] => [(k, v)]
  | kv :: rest => if kv.1 = k then (kv.1, kv.2 + v) :: rest
                  else kv :: bumpAssoc rest k v

/-- The loop of `IsBellRingingTime` building the per-fruit totals. -/
def buildFruitCounts (idxs counts : List Int) : List (Int × Int) :=
  (idxs.zip counts).foldl
    (fun m pc => if pc.1 = -1 then m else bumpAssoc m pc.1 pc.2) []

/-- Go method `Room.IsBellRingingTime`: true when any per-fruit total equals
the room's `fruitBellCount`. -/
def IsBellRingingTime (r : RoomS) : Bool :=
  (buildFruitCounts r.publicFruitIndexes r.publicFruitCounts).any
    (fun kv => kv.2 = r.fruitBellCount)

/-! ### Reveal draw (src/socket/handler.go lines 1487-1499)

The mutation performed by `openCard` once it has found the seat
`playerIndex` with `playerCards[playerIndex] > 0` and sampled `fruitIndex`
and `fruitCount`. -/

def openCardDraw (r : RoomS) (playerIndex : Nat) (fruitIndex fruitCount : Int) :
    RoomS :=
  { r with
    playerCards := r.playerCards.set playerIndex
      (r.playerCards.getD playerIndex 0 - 1)
    openCards := r.openCards.set playerIndex
      (r.openCards.getD playerIndex 0 + 1)
    publicFruitIndexes := r.publicFruitIndexes.set playerIndex fruitIndex
    publicFruitCounts := r.publicFruitCounts.set playerIndex fruitCount
    currentPlayerIndex := (playerIndex + 1) % r.players.length
    bellRung := false }

/-! ### Correct-slap payout (src/socket/handler.go lines 2238-2259) -/

/-- Result of running `for i := 0; i < n; i++ { l[i] = a }` on a Go slice. -/
def overwritePrefix (l : List α) (n : Nat) (a : α) : List α :=
  (List.range n).foldl (fun acc i => acc.set i a) l

/-- Go method `Room.AddAllPublicCardsToPlayer`: add every open card to the
given player's hand (guarded by `playerIndex < len(playerCards)`), then
clear the three face-up arrays; the clearing loop runs over
`len(publicFruitIndexes)`. -/
def AddAllPublicCardsToPlayer (r : RoomS) (playerIndex : Nat) : RoomS :=
  let totalCards := r.openCards.sum
  let pc :=
    if playerIndex < r.playerCards.length then
      r.playerCards.set playerIndex (r.playerCards.getD playerIndex 0 + totalCards)
    else r.playerCards
  let n := r.publicFruitIndexes.length
  { r with
    playerCards := pc
    publicFruitIndexes := overwritePrefix r.publicFruitIndexes n (-1)
    publicFruitCounts := overwritePrefix r.publicFruitCounts n (-1)
    openCards := overwritePrefix r.openCards n 0 }

/-! ### Wrong-slap penalty (src/socket/handler.go lines 2262-2316)

`shuffleIntSlice` is Fisher-Yates driven by `rand.Intn(i+1)`; the random
source is an explicit choice function `c`, with the value used at step `i`
being `c i % (i+1)` — exactly the range `rand.Intn(i+1)` draws from. -/

/-- Swap of two positions of a Go int slice. -/
def swapL (l : List Nat) (i j : Nat) : List Nat :=
  let a := l.getD i 0
  let b := l.getD j 0
  (l.set i b).set j a

/-- The loop `for i := len-1; i > 0; i--`, counting the first argument down. -/
def fisherYatesAux (c : Nat → Nat) : Nat → List Nat → List Nat
  | 0, l => l
  | i+1, l => fisherYatesAux c i (swapL l (i+1) (c (i+1) % (i+2)))

/-- Go function `shuffleIntSlice`. -/
def shuffleIntSlice (c : Nat → Nat) (l : List Nat) : List Nat :=
  fisherYatesAux c (l.length - 1) l

/-- One iteration of the distribution loop: move one card from
`playerIndex` to `ri` when the slapper still holds a card, and record the
recipient in `cardGivenTo`. -/
def distributeStep (playerIndex : Nat) (st : List Nat × List Bool) (ri : Nat) :
    List Nat × List Bool :=
  if 0 < st.1.getD playerIndex 0 then
    let afterDec := st.1.set playerIndex (st.1.getD playerIndex 0 - 1)
    (afterDec.set ri (afterDec.getD ri 0 + 1), st.2.set ri true)
  else st

/-- Go method `Room.DistributeCardsFromPlayer`: every other seat is a
receiver; when the slapper's hand is short, the receiver list is shuffled
and truncated to the hand size; then one card moves per receiver. -/
def DistributeCardsFromPlayer (c : Nat → Nat) (r : RoomS) (playerIndex : Nat) :
    RoomS × List Bool :=
  let totalPlayers := r.playerCards.length
  if totalPlayers = 0 ∨ totalPlayers ≤ playerIndex then
    (r, List.replicate totalPlayers false)
  else
    let receivers0 := (List.range totalPlayers).filter (fun i => i ≠ playerIndex)
    let availableCards := r.playerCards.getD playerIndex 0
    let receivers :=
      if availableCards < receivers0.length then
        (shuffleIntSlice c receivers0).take availableCards
      else receivers0
    let res := receivers.foldl (distributeStep playerIndex)
      (r.playerCards, List.replicate totalPlayers false)
    ({ r with playerCards := res.1 }, res.2)

/-! ### Ranking (src/socket/handler.go lines 2335-2378)

Go sorts `(playerIndex, cardCount)` pairs descending by count with
`sort.Slice` (an unstable sort: any descending arrangement can occur; the
rank assignment below depends only on the counts, which every descending
arrangement orders identically), then walks the sorted list assigning
`currentRank = i + 1` whenever the count changes. -/

/-- One iteration of the rank-assignment loop, on the state
`(ranks, currentRank, currentCardCount)` and the enumerated sorted entry
`(i, (playerIndex, cardCount))`: when the count changes the rank becomes
`i + 1`, and the current rank is written at the player's index. -/
def rankStep (st : List Nat × Nat × Int) (p : Nat × Nat × Int) :
    List Nat × Nat × Int :=
  if p.2.2 ≠ st.2.2 then (st.1.set p.2.1 (p.1 + 1), p.1 + 1, p.2.2)
  else (st.1.set p.2.1 st.2.1, st.2.1, st.2.2)

def calculatePlayerRanks (playerCards : List Int) : List Nat :=
  let playerInfos := (List.range playerCards.length).map
    (fun i => (i, playerCards.getD i 0))
  let sorted := playerInfos.mergeSort (fun a b => decide (b.2 ≤ a.2))
  let ranks0 := (List.range playerCards.length).map (fun i => i + 1)
  let final := sorted.enum.foldl rankStep (ranks0, 1, -1)
  final.1

/-! ### Returning open cards and game end (src/socket/handler.go lines
2319-2332 and 2380-2444) -/

/-- Go method `Room.returnOpenCardsToPlayers`: the adding loop runs over
`len(playerCards)`, the clearing loop over `len(openCards)`. -/
def returnOpenCardsToPlayers (r : RoomS) : RoomS :=
  let pc := (List.range r.playerCards.length).foldl
    (fun acc i =>
      if 0 < r.openCards.getD i 0 then
        acc.set i (acc.getD i 0 + r.openCards.getD i 0)
      else acc)
    r.playerCards
  { r with
    playerCards := pc
    openCards := overwritePrefix r.openCards r.openCards.length 0 }

/-- One outbound message of the bell / game-end path: its signal, its code,
and whether it goes to every in-room client (`gameEventRecipients`) or only
to the requester. -/
structure OutMsg where
  signal : Int
  code : Int
  broadcastToInRoom : Bool
deriving Repr, DecidableEq

/-- Go function `endGameInternal`: return the open cards to their owners,
rank the final hands, broadcast EndGame (signal 3000), and reset the whole
game state of the room. -/
def endGameInternal (r : RoomS) : List OutMsg × RoomS :=
  let r1 := returnOpenCardsToPlayers r
  let r2 := { r1 with
    isGameStarted := false
    isCardGameStarted := false
    playerCards := []
    publicFruitIndexes := []
    publicFruitCounts := []
    openCards := []
    bellRung := false
    isTimeExpired := false
    playerIndexes := []
    players := [] }
  ([⟨3000, 200, true⟩], r2)

/-! ### Bell handling (src/socket/handler.go lines 1528-1647)

The function returns the list of outbound messages in emission order
together with the updated room (`none` when the lookup of the client's room
failed).  The reveal-timer rearm performed by `resetCardTimer` is captured
by `resetCardTimerIntervalMs` above. -/

def handleRingBell (c : Nat → Nat) (client : ClientS) (foundRoom : Option RoomS) :
    List OutMsg × Option RoomS :=
  if client.isInRoom = false then ([⟨2001, 400, false⟩], foundRoom)
  else
    match foundRoom with
    | none => ([⟨2001, 400, false⟩], none)
    | some room =>
      if room.isGameStarted = false then ([⟨2001, 400, false⟩], some room)
      else if room.bellRung then ([], some room)
      else
        let room1 := { room with bellRung := true }
        let isBellTime := IsBellRingingTime room1
        match room1.playerIndexes.lookup client.id with
        | none => ([⟨2001, 400, false⟩], some room1)
        | some playerIndex =>
          if isBellTime then
            let room2 := AddAllPublicCardsToPlayer room1 playerIndex
            if room2.isTimeExpired then
              let ended := endGameInternal room2
              (⟨2002, 200, true⟩ :: ended.1, some ended.2)
            else ([⟨2002, 200, true⟩], some room2)
          else
            let res := DistributeCardsFromPlayer c room1 playerIndex
            ([⟨2003, 200, true⟩], some res.1)

/-! ### Derived notions used by the statements -/

/-- Association-list lookup mirroring reads of the Go map built by
`IsBellRingingTime`. -/
def lookupA : List (Int × Int) → Int → Option Int
  | [], _ => none
  | kv :: rest, k => if kv.1 = k then some kv.2 else lookupA rest k

/-- Sum of the counts of the pairs whose fruit is `f`. -/
def fruitSumPairs (ps : List (Int × Int)) (f : Int) : Int :=
  ((ps.filter (fun pc => pc.1 = f)).map Prod.snd).sum

/-- Specification-side formula of C2: the sum of `publicFruitCounts[i]`
over the seats `i` whose `publicFruitIndexes[i]` equals `f`. -/
def fruitTopSum (idxs counts : List Int) (f : Int) : Int :=
  fruitSumPairs (idxs.zip counts) f

/-- Total number of cards in play of a room: hands plus face-up piles. -/
def cardSum (r : RoomS) : Nat :=
  r.playerCards.sum + r.openCards.sum

/-- The receiver list the wrong-slap penalty settles on in the shortage
case: the shuffled other-seats list truncated to the slapper's hand. -/
def chosenReceivers (c : Nat → Nat) (totalPlayers p k : Nat) : List Nat :=
  (shuffleIntSlice c ((List.range totalPlayers).filter (fun i => i ≠ p))).take k

/-- Canonical parameterisation of the random draws consumed by
`shuffleIntSlice` on a list of length `m`: one value in `[0, i]` for each
step `i`, exactly the range `rand.Intn(i+1)` draws from uniformly. -/
abbrev ChoiceVec (m : Nat) := (i : Fin m) → Fin (i.val + 1)

/-- Interpret a choice vector as the random source of the shuffle. -/
def toChoice (m : Nat) (cv : ChoiceVec m) : Nat → Nat :=
  fun n => if h : n < m then (cv ⟨n, h⟩).val else 0

/-- Number of choice vectors of the canonical space of size `m` under
which the shuffle-and-truncate step selects exactly the set `S` from the
list `l`. -/
def fyCountM (m : Nat) (l : List Nat) (k : Nat) (S : Finset Nat) : Nat :=
  Fintype.card
    {cv : ChoiceVec m //
      ((shuffleIntSlice (toChoice m cv) l).take k).toFinset = S}

/-- Number of choice vectors under which the shuffle-and-truncate step
selects exactly the set `S` from the list `l`. -/
def fyCount (l : List Nat) (k : Nat) (S : Finset Nat) : Nat :=
  fyCountM l.length l k S

/-! ### Concrete states used by witnesses -/

/-- Concrete one-seat room used by witnesses. -/
def roomW : RoomS :=
  ⟨1, ["a"], [4], [1], [0], [2], 5, 3, 0, true, true, false, false, 0,
    [("a", 0)]⟩

/-- Concrete running room whose bell latch is already set. -/
def latchedRoomW : RoomS :=
  ⟨1, ["a", "b"], [3, 3], [1, 1], [0, 1], [2, 2], 5, 3, 0, true, true,
    true, false, 0, [("a", 0), ("b", 1)]⟩

/-- Concrete four-seat room whose seat 0 holds a single card, used by the
wrong-slap witnesses. -/
def shortRoomW : RoomS :=
  ⟨1, ["a", "b", "c", "d"], [1, 5, 5, 5], [1, 1, 1, 1], [0, 1, 2, 0],
    [2, 4, 1, 3], 5, 3, 0, true, true, false, false, 0,
    [("a", 0), ("b", 1), ("c", 2), ("d", 3)]⟩

/-- Concrete three-seat room in which fruit 0 totals exactly the bell
target 5 across the face-up tops. -/
def bellRoomW : RoomS :=
  ⟨1, ["a", "b", "c"], [4, 4, 4], [1, 1, 1], [0, 1, 0], [2, 4, 3], 5, 3, 0,
    true, true, false, false, 0, [("a", 0), ("b", 1), ("c", 2)]⟩

/-! ## Theorems -/

/-! ### C10 — accessor totality -/

/-- C10: for every room and every seat index outside the seat range,
`GetPlayerCardCount` returns 0, `GetPublicFruitIndex` and
`GetPublicFruitCount` return -1, and `SetPlayerCardCount` leaves the room
unchanged; the accessors are total functions, so no out-of-range index
faults through them. -/
theorem accessors_total_out_of_range (r : RoomS) (i : Int) (n : Nat) (v : Nat)
    (hp : r.playerCards.length = n)
    (hf : r.publicFruitIndexes.length = n)
    (hc : r.publicFruitCounts.length = n)
    (hout : i < 0 ∨ (n : Int) ≤ i) :
    GetPlayerCardCount r i = 0 ∧
    GetPublicFruitIndex r i = -1 ∧
    GetPublicFruitCount r i = -1 ∧
    SetPlayerCardCount r i v = r := by
  refine ⟨?_, ?_, ?_, ?_⟩
  · unfold GetPlayerCardCount
    rw [if_pos]
    omega
  · unfold GetPublicFruitIndex
    rw [if_pos]
    omega
  · unfold GetPublicFruitCount
    rw [if_pos]
    omega
  · unfold SetPlayerCardCount
    rw [if_neg]
    omega

/-- Witness for C10 at a concrete room and index. -/
theorem accessors_total_out_of_range_witness :
    GetPlayerCardCount roomW 7 = 0 ∧
    GetPublicFruitIndex roomW 7 = -1 ∧
    GetPublicFruitCount roomW 7 = -1 ∧
    SetPlayerCardCount roomW 7 9 = roomW :=
  accessors_total_out_of_range roomW 7 1 9 rfl rfl rfl (by omega)

/-! ### C9 — frame validation failure -/

/-- C9: an inbound frame whose signal is unrecognised, or whose data field
is missing or null, reaches no request handler; the reply echoes the
frame's signal with code 400 and an empty-object data field. -/
theorem invalid_frame_rejected (f : Frame)
    (h : f.signal ∉ validRequestSignals ∨ f.hasData = false) :
    handleMessage f = .errorReply ⟨f.signal, 400, true⟩ ∧
    ∀ s, handleMessage f ≠ .handled s := by
  have hv : ValidateRequestPacket f = none := by
    unfold ValidateRequestPacket
    rcases h with h | h
    · rw [if_pos]
      simpa using h
    · by_cases hs : validRequestSignals.contains f.signal
      · rw [if_neg (by simpa using hs), if_pos h]
      · rw [if_pos (by simpa using hs)]
  constructor
  · unfold handleMessage
    rw [hv]
    rfl
  · intro s
    unfold handleMessage
    rw [hv]
    simp

/-- Witness for C9 at signal 999 (unrecognised) with data present. -/
theorem invalid_frame_rejected_witness :
    handleMessage ⟨999, true⟩ = .errorReply ⟨999, 400, true⟩ ∧
    ∀ s, handleMessage ⟨999, true⟩ ≠ .handled s :=
  invalid_frame_rejected ⟨999, true⟩ (by decide)

/-! ### C8 — timer rearm after a bell -/

/-- C8 counterexample: the claim says the post-bell rearm uses the room's
tempo interval; for a tempo-0 room the tempo interval is 3000 ms but
`resetCardTimer` arms `config.CardOpenInterval` = 2 s, i.e. 2000 ms. -/
theorem reset_timer_ignores_tempo_counterexample :
    getGameTempoIntervalMs 0 = 3000 ∧ resetCardTimerIntervalMs = 2000 ∧
    resetCardTimerIntervalMs ≠ getGameTempoIntervalMs 0 := by
  decide

/-- C8 amended: after a bell, `resetCardTimer` rearms the reveal timer with
the fixed `CardOpenInterval` of 2 seconds for every room, whatever the
tempo; the tempo mapping 0↦3 s, 1↦2 s, 2↦1.5 s, 3↦1 s governs only the
regular rearm done by `startCardTimer` and `openCard` (it coincides with
the post-bell interval exactly at tempo 1). -/
theorem reset_timer_fixed_interval (tempo : Int) :
    resetCardTimerIntervalMs = 2000 ∧
    getGameTempoIntervalMs 0 = 3000 ∧ getGameTempoIntervalMs 1 = 2000 ∧
    getGameTempoIntervalMs 2 = 1500 ∧ getGameTempoIntervalMs 3 = 1000 ∧
    (resetCardTimerIntervalMs = getGameTempoIntervalMs tempo ↔
      getGameTempoIntervalMs tempo = 2000) := by
  refine ⟨rfl, rfl, rfl, rfl, rfl, ?_⟩
  constructor
  · intro h
    exact h.symm
  · intro h
    exact h.symm

/-! ### C3 — room-scoped fan-out -/

/-- C3: the game-event fan-out loops select every connected client with
`IsInRoom` set, so a client seated in a different room receives the event:
here client "b" sits in room 2 yet is a recipient of an event of room 1.
`notifyPlayerCountChanged` shows the intended room-scoped filter. -/
theorem fanout_reaches_other_rooms :
    ClientS.mk "b" true 2 ∈
      gameEventRecipients [⟨"a", true, 1⟩, ⟨"b", true, 2⟩] ∧
    (ClientS.mk "b" true 2).roomID ≠ (1 : Int) ∧
    ClientS.mk "b" true 2 ∉
      playerCountChangedRecipients [⟨"a", true, 1⟩, ⟨"b", true, 2⟩] 1 := by
  decide

/-! ### C4 — latched-bell handling -/

/-- C4 counterexample: a RingBell request from a seated client of a running
room whose `bellRung` is already set produces no outbound message at all —
in particular no signal-2001 code-400 reply — and leaves the room as it
was.  The claimed error reply does not exist; the request is silently
dropped (handler.go lines 1552-1556 log and return). -/
theorem latched_bell_counterexample :
    (handleRingBell (fun _ => 0) ⟨"a", true, 1⟩ (some latchedRoomW)).1 = [] ∧
    (handleRingBell (fun _ => 0) ⟨"a", true, 1⟩ (some latchedRoomW)).2 =
      some latchedRoomW := by
  exact ⟨rfl, rfl⟩

/-- C4 amended: while `bellRung` is set in a running game, a further
RingBell from a seated member is ignored silently: the server sends nothing
(to anyone) and the room state is unchanged. -/
theorem latched_bell_silent (c : Nat → Nat) (client : ClientS) (room : RoomS)
    (hin : client.isInRoom = true) (hg : room.isGameStarted = true)
    (hb : room.bellRung = true) :
    handleRingBell c client (some room) = ([], some room) := by
  unfold handleRingBell
  rw [hin]
  simp only [Bool.true_eq_false, if_false]
  rw [hg, hb]
  simp

/-- Witness for C4's amended theorem at a concrete latched room. -/
theorem latched_bell_silent_witness :
    (ClientS.mk "b" true 1).isInRoom = true ∧
    latchedRoomW.isGameStarted = true ∧ latchedRoomW.bellRung = true ∧
    handleRingBell (fun _ => 1) ⟨"b", true, 1⟩ (some latchedRoomW) =
      ([], some latchedRoomW) :=
  ⟨rfl, rfl, rfl,
    latched_bell_silent (fun _ => 1) ⟨"b", true, 1⟩ latchedRoomW rfl rfl rfl⟩

/-! ### C5 — room creation: fresh id, but no cap -/

/-- The accumulator of the id-assignment loop never decreases. -/
theorem newRoomIDFold_ge_acc (ids : List Int) :
    ∀ acc : Int, acc ≤ ids.foldl (fun a id => if a ≤ id then id + 1 else a) acc := by
  induction ids with
  | nil => intro acc; simp
  | cons x rest ih =>
    intro acc
    have hstep : acc ≤ if acc ≤ x then x + 1 else acc := by
      by_cases h : acc ≤ x
      · rw [if_pos h]; omega
      · rw [if_neg h]
    calc acc ≤ if acc ≤ x then x + 1 else acc := hstep
      _ ≤ _ := by rw [List.foldl_cons]; exact ih _

/-- After the loop visits id `x`, the accumulator exceeds `x`. -/
theorem newRoomIDFold_gt_mem (ids : List Int) :
    ∀ acc x, x ∈ ids →
      x + 1 ≤ ids.foldl (fun a id => if a ≤ id then id + 1 else a) acc := by
  induction ids with
  | nil => intro acc x hx; cases hx
  | cons y rest ih =>
    intro acc x hx
    rw [List.foldl_cons]
    rcases List.mem_cons.mp hx with h | h
    · subst h
      have hstep : x + 1 ≤ if acc ≤ x then x + 1 else acc := by
        by_cases hc : acc ≤ x
        · rw [if_pos hc]
        · rw [if_neg hc]; omega
      exact le_trans hstep (newRoomIDFold_ge_acc rest _)
    · exact ih _ x h

/-- Any bound above the accumulator and above every id+1 bounds the loop. -/
theorem newRoomIDFold_le_bound (ids : List Int) :
    ∀ acc B : Int, acc ≤ B → (∀ x ∈ ids, x + 1 ≤ B) →
      ids.foldl (fun a id => if a ≤ id then id + 1 else a) acc ≤ B := by
  induction ids with
  | nil => intro acc B h _; simpa using h
  | cons y rest ih =>
    intro acc B hacc hall
    rw [List.foldl_cons]
    refine ih _ B ?_ fun x hx => hall x (List.mem_cons_of_mem y hx)
    by_cases hc : acc ≤ y
    · rw [if_pos hc]; exact hall y (List.mem_cons_self y rest)
    · rw [if_neg hc]; exact hacc

/-- The maximum computed by `foldr max 0` is an element or zero. -/
theorem foldr_max_mem_or_zero (l : List Int) :
    l.foldr max 0 ∈ l ∨ l.foldr max 0 = 0 := by
  induction l with
  | nil => right; rfl
  | cons x rest ih =>
    rw [List.foldr_cons]
    rcases le_total x (rest.foldr max 0) with h | h
    · rw [max_eq_right h]
      rcases ih with hm | hz
      · left; exact List.mem_cons_of_mem x hm
      · right; exact hz
    · rw [max_eq_left h]
      left; exact List.mem_cons_self x rest

/-- Every element is bounded by `foldr max 0`. -/
theorem le_foldr_max (l : List Int) : ∀ x ∈ l, x ≤ l.foldr max 0 := by
  induction l with
  | nil => intro x hx; cases hx
  | cons y rest ih =>
    intro x hx
    rw [List.foldr_cons]
    rcases List.mem_cons.mp hx with h | h
    · subst h; exact le_max_left x _
    · exact le_trans (ih x h) (le_max_right y _)

/-- The id-assignment loop computes 1 + the maximum existing id (1 when no
room exists), for any iteration order of the Go map. -/
theorem newRoomIDFold_spec (ids : List Int) (hids : ∀ id ∈ ids, 1 ≤ id) :
    newRoomIDFold ids = if ids = [] then 1 else 1 + ids.foldr max 0 := by
  cases ids with
  | nil => rfl
  | cons x rest =>
    rw [if_neg (by simp)]
    set M := (x :: rest).foldr max 0 with hM
    have hMmem : M ∈ x :: rest := by
      rcases foldr_max_mem_or_zero (x :: rest) with h | h
      · exact h
      · exfalso
        have hx1 : 1 ≤ x := hids x (List.mem_cons_self x rest)
        have hxM : x ≤ M := le_foldr_max _ x (List.mem_cons_self x rest)
        omega
    have hlow : M + 1 ≤ newRoomIDFold (x :: rest) :=
      newRoomIDFold_gt_mem (x :: rest) 1 M hMmem
    have hhigh : newRoomIDFold (x :: rest) ≤ M + 1 := by
      refine newRoomIDFold_le_bound (x :: rest) 1 (M + 1) ?_ ?_
      · have := hids M hMmem; omega
      · intro y hy
        have := le_foldr_max (x :: rest) y hy
        omega
    omega

/-- C5 counterexample: with `MaxRooms = 6` rooms already present, a valid
CreateRoom request is not rejected; the handler contains no cap check and
creates room 7. -/
theorem create_room_cap_not_enforced :
    ([1, 2, 3, 4, 5, 6] : List Int).length = MaxRooms ∧
    handleCreateRoom false [1, 2, 3, 4, 5, 6] ⟨"R", 4, 3, 5, 0⟩ =
      .created 7 := by
  decide

/-- C5 amended: for every CreateRoom request with valid settings from a
client not yet in a room, the request is accepted — whatever the number of
existing rooms — and the new room's id is 1 + the maximum existing id
(1 when no room exists). -/
theorem create_room_fresh_id (ids : List Int) (s : CreateRoomSettings)
    (hids : ∀ id ∈ ids, 1 ≤ id) (hname : ¬ s.roomName = "")
    (h1 : 2 ≤ s.maxPlayerCount) (h2 : s.maxPlayerCount ≤ 8)
    (h3 : 2 ≤ s.fruitVariation) (h4 : s.fruitVariation ≤ 6)
    (h5 : 3 ≤ s.fruitCount) (h6 : s.fruitCount ≤ 8)
    (h7 : 0 ≤ s.speed) (h8 : s.speed ≤ 3) :
    handleCreateRoom false ids s =
      .created (if ids = [] then 1 else 1 + ids.foldr max 0) := by
  unfold handleCreateRoom
  rw [if_neg (by simp), if_neg hname, if_neg (by omega), if_neg (by omega),
    if_neg (by omega), if_neg (by omega), newRoomIDFold_spec ids hids]

/-- Witness for C5's amended theorem: two rooms 2 and 5 exist, the new room
gets id 6. -/
theorem create_room_fresh_id_witness :
    (∀ id ∈ ([2, 5] : List Int), 1 ≤ id) ∧
    handleCreateRoom false [2, 5] ⟨"room", 4, 3, 5, 0⟩ = .created 6 := by
  refine ⟨by decide, ?_⟩
  have h := create_room_fresh_id [2, 5] ⟨"room", 4, 3, 5, 0⟩ (by decide)
    (by decide) (by decide) (by decide) (by decide) (by decide) (by decide)
    (by decide) (by decide) (by decide)
  simpa using h

/-! ### C2 — bell adjudication -/

/-- Bumping key `k` sets its value to its previous value (default 0) plus
`v`. -/
theorem lookupA_bumpAssoc_eq (m : List (Int × Int)) (k v : Int) :
    lookupA (bumpAssoc m k v) k = some ((lookupA m k).getD 0 + v) := by
  induction m with
  | nil => simp [bumpAssoc, lookupA]
  | cons kv rest ih =>
    by_cases hc : kv.1 = k
    · simp [bumpAssoc, lookupA, hc]
    · simp [bumpAssoc, lookupA, hc, ih]

/-- Bumping key `k` leaves every other key unchanged. -/
theorem lookupA_bumpAssoc_ne (m : List (Int × Int)) (k v k' : Int)
    (h : k' ≠ k) :
    lookupA (bumpAssoc m k v) k' = lookupA m k' := by
  have h' : ¬ k = k' := fun hh => h hh.symm
  induction m with
  | nil => simp [bumpAssoc, lookupA, h']
  | cons kv rest ih =>
    by_cases hc : kv.1 = k
    · simp [bumpAssoc, lookupA, hc, h']
    · simp only [bumpAssoc, if_neg hc]
      by_cases hc' : kv.1 = k'
      · simp [lookupA, hc']
      · simp [lookupA, hc', ih]

/-- Value computed by the map-building loop of `IsBellRingingTime`: the
previous value plus the total count of the pairs carrying fruit `k`. -/
theorem lookupA_fruitFold_val (ps : List (Int × Int)) :
    ∀ (m : List (Int × Int)) (k : Int), k ≠ -1 →
      (lookupA (ps.foldl
          (fun m pc => if pc.1 = -1 then m else bumpAssoc m pc.1 pc.2) m) k).getD 0
        = (lookupA m k).getD 0 + fruitSumPairs ps k := by
  induction ps with
  | nil =>
    intro m k _
    simp [fruitSumPairs]
  | cons pc ps ih =>
    intro m k hk
    rw [List.foldl_cons]
    by_cases h1 : pc.1 = -1
    · have hne : ¬ pc.1 = k := by rw [h1]; exact fun h => hk h.symm
      rw [if_pos h1, ih m k hk]
      simp [fruitSumPairs, List.filter_cons, hne]
    · rw [if_neg h1]
      by_cases h2 : pc.1 = k
      · rw [ih _ k hk]
        subst h2
        rw [lookupA_bumpAssoc_eq]
        simp [fruitSumPairs, List.filter_cons]
        omega
      · rw [ih _ k hk, lookupA_bumpAssoc_ne _ _ _ _ (fun hh => h2 hh.symm)]
        simp [fruitSumPairs, List.filter_cons, h2]

/-- Presence in the map built by `IsBellRingingTime`: a key is present
exactly when it was present before or some processed pair carries it (the
sentinel `-1` is never inserted). -/
theorem lookupA_fruitFold_isSome (ps : List (Int × Int)) :
    ∀ (m : List (Int × Int)) (k : Int), k ≠ -1 →
      ((lookupA (ps.foldl
          (fun m pc => if pc.1 = -1 then m else bumpAssoc m pc.1 pc.2) m) k).isSome
        ↔ (lookupA m k).isSome ∨ ∃ pc ∈ ps, pc.1 = k) := by
  induction ps with
  | nil =>
    intro m k _
    simp
  | cons pc ps ih =>
    intro m k hk
    rw [List.foldl_cons]
    by_cases h1 : pc.1 = -1
    · have hne : ¬ pc.1 = k := by rw [h1]; exact fun h => hk h.symm
      rw [if_pos h1, ih m k hk]
      simp [hne]
    · rw [if_neg h1]
      by_cases h2 : pc.1 = k
      · rw [ih _ k hk]
        subst h2
        rw [lookupA_bumpAssoc_eq]
        simp
      · rw [ih _ k hk, lookupA_bumpAssoc_ne _ _ _ _ (fun hh => h2 hh.symm)]
        simp [h2]

/-- The sentinel key `-1` is never inserted by the map-building loop. -/
theorem lookupA_fruitFold_neg (ps : List (Int × Int)) :
    ∀ m : List (Int × Int),
      lookupA (ps.foldl
        (fun m pc => if pc.1 = -1 then m else bumpAssoc m pc.1 pc.2) m) (-1)
        = lookupA m (-1) := by
  induction ps with
  | nil => intro m; rfl
  | cons pc ps ih =>
    intro m
    rw [List.foldl_cons]
    by_cases h1 : pc.1 = -1
    · rw [if_pos h1, ih m]
    · rw [if_neg h1, ih _, lookupA_bumpAssoc_ne _ _ _ _ (fun hh => h1 hh.symm)]

/-- Keys after a bump: unchanged when the key was present, appended
otherwise. -/
theorem keys_bumpAssoc (m : List (Int × Int)) (k v : Int) :
    (bumpAssoc m k v).map Prod.fst =
      if k ∈ m.map Prod.fst then m.map Prod.fst
      else m.map Prod.fst ++ [k] := by
  induction m with
  | nil => simp [bumpAssoc]
  | cons kv rest ih =>
    by_cases hc : kv.1 = k
    · simp [bumpAssoc, hc]
    · have : ¬ k = kv.1 := fun hh => hc hh.symm
      simp only [bumpAssoc, if_neg hc, List.map_cons, List.mem_cons, this,
        false_or, ih]
      by_cases hm : k ∈ rest.map Prod.fst
      · rw [if_pos hm, if_pos hm]
      · rw [if_neg hm, if_neg hm, List.cons_append]

/-- A bump keeps the keys of the association list distinct. -/
theorem nodup_keys_bumpAssoc (m : List (Int × Int)) (k v : Int)
    (h : (m.map Prod.fst).Nodup) :
    ((bumpAssoc m k v).map Prod.fst).Nodup := by
  rw [keys_bumpAssoc]
  by_cases hm : k ∈ m.map Prod.fst
  · rwa [if_pos hm]
  · rw [if_neg hm, List.nodup_append]
    exact ⟨h, List.nodup_singleton k, by
      intro x hx hx'
      rw [List.mem_singleton] at hx'
      subst hx'
      exact hm hx⟩

/-- The whole map-building loop keeps keys distinct. -/
theorem nodup_keys_fruitFold (ps : List (Int × Int)) :
    ∀ m : List (Int × Int), (m.map Prod.fst).Nodup →
      ((ps.foldl
        (fun m pc => if pc.1 = -1 then m else bumpAssoc m pc.1 pc.2) m).map
          Prod.fst).Nodup := by
  induction ps with
  | nil => intro m h; exact h
  | cons pc ps ih =>
    intro m h
    rw [List.foldl_cons]
    by_cases h1 : pc.1 = -1
    · rw [if_pos h1]; exact ih m h
    · rw [if_neg h1]; exact ih _ (nodup_keys_bumpAssoc m pc.1 pc.2 h)

/-- With distinct keys, membership determines the lookup result. -/
theorem lookupA_of_mem (m : List (Int × Int)) (kv : Int × Int)
    (hnd : (m.map Prod.fst).Nodup) (hmem : kv ∈ m) :
    lookupA m kv.1 = some kv.2 := by
  induction m with
  | nil => cases hmem
  | cons hd rest ih =>
    rcases List.mem_cons.mp hmem with h | h
    · subst h; simp [lookupA]
    · have hne : ¬ hd.1 = kv.1 := by
        intro hh
        rw [List.map_cons, List.nodup_cons] at hnd
        exact hnd.1 (hh ▸ List.mem_map.mpr ⟨kv, h, rfl⟩)
      simp only [lookupA, if_neg hne]
      exact ih (by
        rw [List.map_cons, List.nodup_cons] at hnd
        exact hnd.2) h

/-- A successful lookup exhibits a member of the association list. -/
theorem mem_of_lookupA (m : List (Int × Int)) (k v : Int)
    (h : lookupA m k = some v) : (k, v) ∈ m := by
  induction m with
  | nil => cases h
  | cons hd rest ih =>
    by_cases hc : hd.1 = k
    · simp only [lookupA, if_pos hc] at h
      have : hd = (k, v) := by
        cases h
        exact Prod.ext hc rfl
      rw [← this]
      exact List.mem_cons_self hd rest
    · simp only [lookupA, if_neg hc] at h
      exact List.mem_cons_of_mem hd (ih h)

/-- C2: `IsBellRingingTime` returns true exactly when some fruit's face-up
total equals the room's bell target.  The hypotheses record the reachable
shape of the state: tops are `-1` or a fruit index, and the bell target is
positive (room validation forces 3..8). -/
theorem bell_iff_fruit_total (r : RoomS)
    (hlen : r.publicFruitIndexes.length = r.publicFruitCounts.length)
    (htops : ∀ x ∈ r.publicFruitIndexes, -1 ≤ x)
    (htarget : r.fruitBellCount ≠ 0) :
    IsBellRingingTime r = true ↔
      ∃ f : Int, 0 ≤ f ∧
        fruitTopSum r.publicFruitIndexes r.publicFruitCounts f =
          r.fruitBellCount := by
  unfold IsBellRingingTime buildFruitCounts
  rw [List.any_eq_true]
  constructor
  · rintro ⟨kv, hmem, hval⟩
    have hval' : kv.2 = r.fruitBellCount := by simpa using hval
    have hnodup := nodup_keys_fruitFold
      (r.publicFruitIndexes.zip r.publicFruitCounts) [] (by simp)
    have hlk := lookupA_of_mem _ kv hnodup hmem
    have hk : kv.1 ≠ -1 := by
      intro hkk
      rw [hkk, lookupA_fruitFold_neg] at hlk
      cases hlk
    have hsum := lookupA_fruitFold_val
      (r.publicFruitIndexes.zip r.publicFruitCounts) [] kv.1 hk
    rw [hlk] at hsum
    have h0 : 0 ≤ kv.1 := by
      have hex := (lookupA_fruitFold_isSome
        (r.publicFruitIndexes.zip r.publicFruitCounts) [] kv.1 hk).mp
        (by rw [hlk]; rfl)
      rcases hex with h | ⟨⟨p1, p2⟩, hpc, hpck⟩
      · cases h
      · have hmemIdx : p1 ∈ r.publicFruitIndexes := (List.of_mem_zip hpc).1
        have := htops p1 hmemIdx
        simp only at hpck
        omega
    refine ⟨kv.1, h0, ?_⟩
    unfold fruitTopSum
    simp only [lookupA, Option.getD_some, Option.getD_none] at hsum
    omega
  · rintro ⟨f, hf0, hfsum⟩
    have hk : f ≠ -1 := by omega
    have hex : ∃ pc ∈ r.publicFruitIndexes.zip r.publicFruitCounts,
        pc.1 = f := by
      by_contra hno
      push_neg at hno
      have hfil : (r.publicFruitIndexes.zip r.publicFruitCounts).filter
          (fun pc => pc.1 = f) = [] := by
        rw [List.filter_eq_nil_iff]
        intro a ha
        simpa using hno a ha
      unfold fruitTopSum fruitSumPairs at hfsum
      rw [hfil] at hfsum
      simp at hfsum
      exact htarget hfsum.symm
    have hsome := (lookupA_fruitFold_isSome
      (r.publicFruitIndexes.zip r.publicFruitCounts) [] f hk).mpr
      (Or.inr hex)
    obtain ⟨v, hv⟩ := Option.isSome_iff_exists.mp hsome
    have hsum := lookupA_fruitFold_val
      (r.publicFruitIndexes.zip r.publicFruitCounts) [] f hk
    rw [hv] at hsum
    simp only [lookupA, Option.getD_some, Option.getD_none] at hsum
    refine ⟨(f, v), mem_of_lookupA _ f v hv, ?_⟩
    unfold fruitTopSum at hfsum
    simp only [decide_eq_true_eq]
    omega

/-- Witness for C2 at a concrete room: fruit 0 shows 2 and 3 across the
tops, totalling the target 5, and the bell check returns true. -/
theorem bell_iff_fruit_total_witness :
    bellRoomW.publicFruitIndexes.length =
      bellRoomW.publicFruitCounts.length ∧
    (∀ x ∈ bellRoomW.publicFruitIndexes, -1 ≤ x) ∧
    bellRoomW.fruitBellCount ≠ 0 ∧
    IsBellRingingTime bellRoomW = true :=
  ⟨rfl, by decide, by decide,
    (bell_iff_fruit_total bellRoomW rfl (by decide) (by decide)).mpr
      ⟨0, by decide, by decide⟩⟩

/-! ### C1 — card conservation -/

/-- General description of `List.set` through `getD`. -/
theorem getD_set_cases (l : List α) (i j : Nat) (a d : α) :
    (l.set i a).getD j d = if i = j ∧ i < l.length then a else l.getD j d := by
  rw [List.getD_eq_getElem?_getD, List.getElem?_set,
    List.getD_eq_getElem?_getD]
  by_cases hij : i = j
  · subst hij
    by_cases hl : i < l.length
    · simp [hl]
    · simp [hl]
      have hnone : l[i]? = none := List.getElem?_eq_none (by omega)
      rw [hnone]
      rfl
  · simp [hij]

/-- A positive default-read implies the index is in range. -/
theorem lt_length_of_getD_pos (l : List Nat) (i : Nat)
    (h : 0 < l.getD i 0) : i < l.length := by
  by_contra hc
  push_neg at hc
  rw [List.getD_eq_default _ _ hc] at h
  omega

/-- Sum of a list split at an in-range position. -/
theorem sum_getD_decomp (l : List Nat) (i : Nat) (h : i < l.length) :
    l.sum = (l.take i).sum + l.getD i 0 + (l.drop (i + 1)).sum := by
  conv_lhs => rw [← List.take_append_drop i l]
  rw [List.sum_append, List.drop_eq_getElem_cons h, List.sum_cons,
    List.getD_eq_getElem l 0 h]
  omega

/-- Writing `v` at an in-range position trades the old entry for `v` in
the sum (stated without truncated subtraction). -/
theorem sum_set_nat (l : List Nat) (i v : Nat) (h : i < l.length) :
    (l.set i v).sum + l.getD i 0 = l.sum + v := by
  have h2 := List.sum_set l i v
  rw [if_pos h] at h2
  have h3 := sum_getD_decomp l i h
  omega

/-- Swapping two in-range positions permutes the list. -/
theorem swapL_perm (l : List Nat) (i j : Nat) (hi : i < l.length)
    (hj : j < l.length) : (swapL l i j).Perm l := by
  rw [List.perm_iff_count]
  intro x
  unfold swapL
  simp only
  rw [List.count_set _ _ _ _ (by simpa using hj),
    List.count_set _ _ _ _ hi,
    List.getElem_set (by simpa using hj)]
  simp only [List.getD_eq_getElem l 0 hj, List.getD_eq_getElem l 0 hi]
  by_cases hij : i = j
  · subst hij
    by_cases h1 : l[i] = x
    · have hpos : 0 < List.count x l :=
        List.count_pos_iff.mpr (h1 ▸ List.getElem_mem hi)
      simp [h1]
      omega
    · simp [h1]
  · by_cases h1 : l[i] = x
    · have hpos : 0 < List.count x l :=
        List.count_pos_iff.mpr (h1 ▸ List.getElem_mem hi)
      by_cases h2 : l[j] = x
      · simp [hij, h1, h2]
        omega
      · simp [hij, h1, h2]
        omega
    · by_cases h2 : l[j] = x
      · have hpos : 0 < List.count x l :=
          List.count_pos_iff.mpr (h2 ▸ List.getElem_mem hj)
        simp [hij, h1, h2]
      · simp [hij, h1, h2]

/-- Every step of the Fisher-Yates loop permutes the list. -/
theorem fisherYatesAux_perm (c : Nat → Nat) :
    ∀ (n : Nat) (l : List Nat), n < l.length →
      (fisherYatesAux c n l).Perm l := by
  intro n
  induction n with
  | zero => intro l _; exact List.Perm.refl l
  | succ i ih =>
    intro l h
    have hj : c (i + 1) % (i + 2) < l.length := by
      have hm : c (i + 1) % (i + 2) < i + 2 := Nat.mod_lt _ (by omega)
      omega
    have hswap := swapL_perm l (i + 1) (c (i + 1) % (i + 2)) h hj
    have hlen := hswap.length_eq
    exact (ih _ (by omega)).trans hswap

/-- Go's `shuffleIntSlice` permutes its argument for every random source. -/
theorem shuffleIntSlice_perm (c : Nat → Nat) (l : List Nat) :
    (shuffleIntSlice c l).Perm l := by
  unfold shuffleIntSlice
  cases l with
  | nil => exact List.Perm.refl _
  | cons x xs =>
    exact fisherYatesAux_perm c _ _ (by simp)

/-- One distribution step preserves the hand total and the list length. -/
theorem distributeStep_sum (p : Nat) (st : List Nat × List Bool) (ri : Nat)
    (hri : ri < st.1.length) (hne : ri ≠ p) :
    (distributeStep p st ri).1.sum = st.1.sum ∧
    (distributeStep p st ri).1.length = st.1.length := by
  unfold distributeStep
  by_cases hg : 0 < st.1.getD p 0
  · rw [if_pos hg]
    simp only
    have hp : p < st.1.length := lt_length_of_getD_pos _ _ hg
    have h1 := sum_set_nat st.1 p (st.1.getD p 0 - 1) hp
    have hlen : (st.1.set p (st.1.getD p 0 - 1)).length = st.1.length := by
      simp
    have h2 := sum_set_nat (st.1.set p (st.1.getD p 0 - 1)) ri
      ((st.1.set p (st.1.getD p 0 - 1)).getD ri 0 + 1) (by omega)
    refine ⟨by omega, by simp⟩
  · rw [if_neg hg]
    exact ⟨rfl, rfl⟩

/-- The whole distribution loop preserves the hand total and length as
long as every receiver is an in-range seat other than the slapper. -/
theorem distribute_fold_sum (p : Nat) (rs : List Nat) :
    ∀ st : List Nat × List Bool, (∀ ri ∈ rs, ri < st.1.length ∧ ri ≠ p) →
      (rs.foldl (distributeStep p) st).1.sum = st.1.sum ∧
      (rs.foldl (distributeStep p) st).1.length = st.1.length := by
  induction rs with
  | nil => intro st _; exact ⟨rfl, rfl⟩
  | cons r rest ih =>
    intro st hall
    rw [List.foldl_cons]
    have hr := hall r (List.mem_cons_self r rest)
    have hstep := distributeStep_sum p st r hr.1 hr.2
    have hrest := ih (distributeStep p st r) (fun ri hri => by
      have := hall ri (List.mem_cons_of_mem r hri)
      omega)
    exact ⟨hrest.1.trans hstep.1, hrest.2.trans hstep.2⟩

/-- Length after the prefix overwrite. -/
theorem length_overwritePrefix (l : List α) (n : Nat) (a : α) :
    (overwritePrefix l n a).length = l.length := by
  unfold overwritePrefix
  induction n with
  | zero => rfl
  | succ m ih =>
    rw [List.range_succ, List.foldl_append]
    simp [ih]

/-- Unrolling of the last iteration of the prefix overwrite. -/
theorem overwritePrefix_succ (l : List α) (m : Nat) (a : α) :
    overwritePrefix l (m + 1) a = (overwritePrefix l m a).set m a := by
  unfold overwritePrefix
  rw [List.range_succ, List.foldl_append]
  rfl

/-- Elementwise description of the prefix overwrite. -/
theorem getD_overwritePrefix (l : List α) (n : Nat) (a d : α) (i : Nat) :
    (overwritePrefix l n a).getD i d =
      if i < n ∧ i < l.length then a else l.getD i d := by
  induction n with
  | zero => simp [overwritePrefix]
  | succ m ih =>
    rw [overwritePrefix_succ, getD_set_cases, length_overwritePrefix, ih]
    by_cases hmi : m = i
    · subst hmi
      by_cases hl : m < l.length
      · simp [hl]
      · simp [hl]
    · by_cases h2 : i < m
      · have h3 : i < m + 1 := by omega
        simp [hmi, h2, h3]
      · have h3 : ¬ i < m + 1 := by omega
        simp [hmi, h2, h3]

/-- A full overwrite with zeros empties the sum. -/
theorem sum_overwritePrefix_zero (l : List Nat) (n : Nat)
    (h : l.length ≤ n) : (overwritePrefix l n 0).sum = 0 := by
  have hall : ∀ x ∈ overwritePrefix l n 0, x = 0 := by
    intro x hx
    obtain ⟨i, hi, hget⟩ := List.mem_iff_getElem.mp hx
    have hlen : i < l.length := by
      have := length_overwritePrefix l n (0 : Nat)
      omega
    have := getD_overwritePrefix l n (0 : Nat) 0 i
    rw [if_pos ⟨by omega, hlen⟩] at this
    rw [List.getD_eq_getElem _ 0 hi] at this
    omega
  simpa using List.sum_eq_zero hall

/-- The reveal draw moves one card from the hand to the face-up pile of
the drawing seat. -/
theorem openCardDraw_conserves (r : RoomS) (seat : Nat) (fi fc : Int)
    (hseat : seat < r.playerCards.length)
    (hlen : r.openCards.length = r.playerCards.length)
    (hpos : 0 < r.playerCards.getD seat 0) :
    cardSum (openCardDraw r seat fi fc) = cardSum r := by
  unfold cardSum openCardDraw
  simp only
  have h1 := sum_set_nat r.playerCards seat (r.playerCards.getD seat 0 - 1)
    hseat
  have h2 := sum_set_nat r.openCards seat (r.openCards.getD seat 0 + 1)
    (by omega)
  omega

/-- The correct-slap payout moves every open card into the slapper's hand
and clears the piles. -/
theorem addAllPublicCards_conserves (r : RoomS) (p : Nat)
    (hp : p < r.playerCards.length)
    (hlen : r.openCards.length = r.publicFruitIndexes.length) :
    cardSum (AddAllPublicCardsToPlayer r p) = cardSum r := by
  unfold cardSum AddAllPublicCardsToPlayer
  simp only [if_pos hp]
  have h1 := sum_set_nat r.playerCards p
    (r.playerCards.getD p 0 + r.openCards.sum) hp
  have h2 := sum_overwritePrefix_zero r.openCards
    r.publicFruitIndexes.length (by omega)
  omega

/-- Every receiver produced by the wrong-slap penalty is an in-range seat
other than the slapper. -/
theorem distribute_receivers_bound (c : Nat → Nat) (n p : Nat) :
    ∀ k ri, ri ∈ (shuffleIntSlice c
        ((List.range n).filter (fun i => i ≠ p))).take k →
      ri < n ∧ ri ≠ p := by
  intro k ri hri
  have h1 : ri ∈ shuffleIntSlice c ((List.range n).filter (fun i => i ≠ p)) :=
    (List.take_sublist k _).subset hri
  have h2 : ri ∈ (List.range n).filter (fun i => i ≠ p) :=
    (shuffleIntSlice_perm c _).mem_iff.mp h1
  have h3 := List.mem_filter.mp h2
  refine ⟨List.mem_range.mp h3.1, by simpa using h3.2⟩

/-- The wrong-slap penalty conserves the total number of cards for every
slapper index and every random source. -/
theorem distribute_conserves (c : Nat → Nat) (r : RoomS) (p : Nat) :
    cardSum ((DistributeCardsFromPlayer c r p).1) = cardSum r := by
  unfold cardSum DistributeCardsFromPlayer
  by_cases h0 : r.playerCards.length = 0 ∨ r.playerCards.length ≤ p
  · rw [if_pos h0]
  · rw [if_neg h0]
    simp only
    have hbound : ∀ ri ∈ (if r.playerCards.getD p 0 <
          ((List.range r.playerCards.length).filter (fun i => i ≠ p)).length
        then (shuffleIntSlice c ((List.range r.playerCards.length).filter
          (fun i => i ≠ p))).take (r.playerCards.getD p 0)
        else (List.range r.playerCards.length).filter (fun i => i ≠ p)),
        ri < r.playerCards.length ∧ ri ≠ p := by
      intro ri hri
      by_cases hc : r.playerCards.getD p 0 <
          ((List.range r.playerCards.length).filter (fun i => i ≠ p)).length
      · rw [if_pos hc] at hri
        exact distribute_receivers_bound c _ p _ ri hri
      · rw [if_neg hc] at hri
        have h3 := List.mem_filter.mp hri
        exact ⟨List.mem_range.mp h3.1, by simpa using h3.2⟩
    have hfold := distribute_fold_sum p _ (r.playerCards, List.replicate
      r.playerCards.length false) hbound
    simp only at hfold
    omega

/-- C1: every state mutator of a running card game — the reveal draw, the
correct-slap payout (`AddAllPublicCardsToPlayer`) and the wrong-slap
penalty (`DistributeCardsFromPlayer`) — preserves the total number of
cards, i.e. the sum over all seats of hand plus face-up pile.  The length
hypotheses record that the per-seat arrays are allocated with one slot per
seat at game start. -/
theorem card_conservation :
    (∀ (r : RoomS) (seat : Nat) (fi fc : Int),
      seat < r.playerCards.length →
      r.openCards.length = r.playerCards.length →
      0 < r.playerCards.getD seat 0 →
      cardSum (openCardDraw r seat fi fc) = cardSum r) ∧
    (∀ (r : RoomS) (p : Nat),
      p < r.playerCards.length →
      r.openCards.length = r.publicFruitIndexes.length →
      cardSum (AddAllPublicCardsToPlayer r p) = cardSum r) ∧
    (∀ (c : Nat → Nat) (r : RoomS) (p : Nat),
      cardSum ((DistributeCardsFromPlayer c r p).1) = cardSum r) :=
  ⟨fun r seat fi fc h1 h2 h3 => openCardDraw_conserves r seat fi fc h1 h2 h3,
   fun r p h1 h2 => addAllPublicCards_conserves r p h1 h2,
   fun c r p => distribute_conserves c r p⟩

/-- Witness for C1 at a concrete three-seat room: all three mutators leave
the 15 cards in play unchanged. -/
theorem card_conservation_witness :
    cardSum (openCardDraw bellRoomW 0 2 4) = cardSum bellRoomW ∧
    cardSum (AddAllPublicCardsToPlayer bellRoomW 1) = cardSum bellRoomW ∧
    cardSum ((DistributeCardsFromPlayer (fun _ => 1) bellRoomW 2).1) =
      cardSum bellRoomW :=
  ⟨card_conservation.1 bellRoomW 0 2 4 (by decide) (by decide) (by decide),
   card_conservation.2.1 bellRoomW 1 (by decide) (by decide),
   card_conservation.2.2 (fun _ => 1) bellRoomW 2⟩

/-! ### C7 — competition ranking -/

theorem rank_fold_spec :
    ∀ (s P : List (Nat × Int)) (ranks : List Nat) (curRank : Nat)
      (curCount : Int),
      List.Pairwise (fun a b : Nat × Int => b.2 ≤ a.2) (P ++ s) →
      ((P ++ s).map Prod.fst).Nodup →
      (∀ q ∈ s, q.1 < ranks.length) →
      ((P = [] ∧ curRank = 1 ∧ curCount = -1 ∧ ∀ x ∈ s, 0 ≤ x.2) ∨
        (∃ q0 P', P = P' ++ [q0] ∧ curCount = q0.2 ∧
          curRank = 1 + P.countP (fun y => decide (curCount < y.2)))) →
      (∀ q ∈ s,
        ((List.enumFrom P.length s).foldl rankStep
            (ranks, curRank, curCount)).1.getD q.1 0
          = 1 + (P ++ s).countP (fun y => decide (q.2 < y.2))) ∧
      (∀ j, j ∉ s.map Prod.fst →
        ((List.enumFrom P.length s).foldl rankStep
            (ranks, curRank, curCount)).1.getD j 0 = ranks.getD j 0) ∧
      ((List.enumFrom P.length s).foldl rankStep
          (ranks, curRank, curCount)).1.length = ranks.length := by
  intro s
  induction s with
  | nil =>
    intro P ranks curRank curCount _ _ _ _
    refine ⟨fun q hq => absurd hq (List.not_mem_nil q), fun j _ => rfl, rfl⟩
  | cons q rest ih =>
    intro P ranks curRank curCount hsorted hnodup hbounds hstate
    have hq1lt : q.1 < ranks.length := hbounds q (List.mem_cons_self q rest)
    -- the pairwise facts
    have hsorted' : List.Pairwise (fun a b : Nat × Int => b.2 ≤ a.2)
        (q :: rest) := List.Pairwise.sublist
      (List.sublist_append_right P (q :: rest)) hsorted
    have hrest_le : ∀ y ∈ rest, y.2 ≤ q.2 :=
      fun y hy => (List.pairwise_cons.mp hsorted').1 y hy
    have hP_ge : ∀ y ∈ P, q.2 ≤ y.2 := by
      intro y hy
      exact (List.pairwise_append.mp hsorted).2.2 y hy q
        (List.mem_cons_self q rest)
    -- nodup facts
    have hq1_notin_rest : q.1 ∉ rest.map Prod.fst := by
      have hsub : (q.1 :: rest.map Prod.fst).Sublist ((P ++ q :: rest).map
          Prod.fst) := by
        rw [List.map_append, List.map_cons]
        exact List.sublist_append_right _ _
      have := hsub.nodup hnodup
      exact (List.nodup_cons.mp this).1
    -- countP of the tail at q's count is zero
    have hcount_tail : (q :: rest).countP
        (fun y => decide (q.2 < y.2)) = 0 := by
      rw [List.countP_eq_zero]
      intro a ha
      rcases List.mem_cons.mp ha with h | h
      · subst h; simp
      · have := hrest_le a h
        simp
        omega
    -- unfold the first fold step
    show (∀ q' ∈ q :: rest,
        ((List.enumFrom P.length (q :: rest)).foldl rankStep
          (ranks, curRank, curCount)).1.getD q'.1 0
        = 1 + (P ++ q :: rest).countP (fun y => decide (q'.2 < y.2))) ∧ _
    have hfold : (List.enumFrom P.length (q :: rest)).foldl rankStep
        (ranks, curRank, curCount)
        = (List.enumFrom (P.length + 1) rest).foldl rankStep
            (rankStep (ranks, curRank, curCount) (P.length, q)) := rfl
    by_cases hq : q.2 = curCount
    · -- equal-count branch: rank stays
      obtain ⟨q0, P', hP, hc0, hcr⟩ : ∃ q0 P', P = P' ++ [q0] ∧
          curCount = q0.2 ∧
          curRank = 1 + P.countP (fun y => decide (curCount < y.2)) := by
        rcases hstate with ⟨hP0, _, hcm1, hpos⟩ | h
        · exfalso
          have := hpos q (List.mem_cons_self q rest)
          omega
        · exact h
      have hstep : rankStep (ranks, curRank, curCount) (P.length, q)
          = (ranks.set q.1 curRank, curRank, curCount) := by
        unfold rankStep
        simp [hq]
      have hassoc : (P ++ [q]) ++ rest = P ++ q :: rest := by simp
      have hlen1 : (P ++ [q]).length = P.length + 1 := by simp
      have ihout := ih (P ++ [q]) (ranks.set q.1 curRank) curRank curCount
        (by rw [hassoc]; exact hsorted)
        (by rw [hassoc]; exact hnodup)
        (fun q' hq' => by
          have := hbounds q' (List.mem_cons_of_mem q hq')
          simpa using this)
        (Or.inr ⟨q, P, rfl, by omega, by
          rw [List.countP_append]
          have : ([q].countP fun y => decide (curCount < y.2)) = 0 := by
            rw [List.countP_eq_zero]
            intro a ha
            rcases List.mem_singleton.mp ha with rfl
            simp
            omega
          omega⟩)
      rw [hfold, hstep]
      obtain ⟨ihRank, ihFrame, ihLen⟩ := ihout
      rw [hlen1] at ihRank ihFrame ihLen
      refine ⟨?_, ?_, ?_⟩
      · intro q' hq'
        rcases List.mem_cons.mp hq' with h | h
        · subst h
          rw [ihFrame q'.1 hq1_notin_rest]
          rw [getD_set_cases, if_pos ⟨rfl, hq1lt⟩]
          rw [List.countP_append, hcount_tail]
          rw [hcr, hc0]
          have : (P.countP fun y => decide (q0.2 < y.2))
              = (P.countP fun y => decide (q'.2 < y.2)) := by
            rw [hq, hc0]
          omega
        · rw [ihRank q' h, hassoc]
      · intro j hj
        rw [List.map_cons] at hj
        have hj1 : j ∉ rest.map Prod.fst := fun h => hj (List.mem_cons_of_mem _ h)
        have hj2 : ¬ q.1 = j := fun h => hj (h ▸ List.mem_cons_self _ _)
        rw [ihFrame j hj1, getD_set_cases]
        simp [hj2]
      · rw [ihLen]
        simp
    · -- new-count branch: rank becomes position + 1
      have hstep : rankStep (ranks, curRank, curCount) (P.length, q)
          = (ranks.set q.1 (P.length + 1), P.length + 1, q.2) := by
        unfold rankStep
        simp [hq]
      have hP_gt : ∀ y ∈ P, q.2 < y.2 := by
        rcases hstate with ⟨hP0, _, _, _⟩ | ⟨q0, P', hP, hc0, _⟩
        · intro y hy; rw [hP0] at hy; cases hy
        · intro y hy
          have hy_ge := hP_ge y hy
          have hq0_ge : q.2 ≤ q0.2 := hP_ge q0 (by rw [hP]; simp)
          have hq0_gt : q.2 < q0.2 := by
            rcases lt_or_eq_of_le hq0_ge with h | h
            · exact h
            · exact absurd (by omega : q.2 = curCount) hq
          rw [hP] at hy
          rcases List.mem_append.mp hy with h | h
          · have hpair : List.Pairwise (fun a b : Nat × Int => b.2 ≤ a.2)
                P := by
              have hsub : P.Sublist (P ++ q :: rest) :=
                List.sublist_append_left _ _
              exact List.Pairwise.sublist hsub hsorted
            rw [hP] at hpair
            have := (List.pairwise_append.mp hpair).2.2 y h q0
              (List.mem_singleton_self q0)
            omega
          · rcases List.mem_singleton.mp h with rfl
            omega
      have hcountP_P : (P.countP fun y => decide (q.2 < y.2)) = P.length := by
        rw [List.countP_eq_length]
        intro a ha
        simp
        exact hP_gt a ha
      have hassoc : (P ++ [q]) ++ rest = P ++ q :: rest := by simp
      have hlen1 : (P ++ [q]).length = P.length + 1 := by simp
      have ihout := ih (P ++ [q]) (ranks.set q.1 (P.length + 1))
        (P.length + 1) q.2
        (by rw [hassoc]; exact hsorted)
        (by rw [hassoc]; exact hnodup)
        (fun q' hq' => by
          have := hbounds q' (List.mem_cons_of_mem q hq')
          simpa using this)
        (Or.inr ⟨q, P, rfl, rfl, by
          rw [List.countP_append, hcountP_P]
          have : ([q].countP fun y => decide (q.2 < y.2)) = 0 := by
            rw [List.countP_eq_zero]
            intro a ha
            rcases List.mem_singleton.mp ha with rfl
            simp
          omega⟩)
      rw [hfold, hstep]
      obtain ⟨ihRank, ihFrame, ihLen⟩ := ihout
      rw [hlen1] at ihRank ihFrame ihLen
      refine ⟨?_, ?_, ?_⟩
      · intro q' hq'
        rcases List.mem_cons.mp hq' with h | h
        · subst h
          rw [ihFrame q'.1 hq1_notin_rest]
          rw [getD_set_cases, if_pos ⟨rfl, hq1lt⟩]
          rw [List.countP_append, hcount_tail, hcountP_P]
          omega
        · rw [ihRank q' h, hassoc]
      · intro j hj
        rw [List.map_cons] at hj
        have hj1 : j ∉ rest.map Prod.fst := fun h => hj (List.mem_cons_of_mem _ h)
        have hj2 : ¬ q.1 = j := fun h => hj (h ▸ List.mem_cons_self _ _)
        rw [ihFrame j hj1, getD_set_cases]
        simp [hj2]
      · rw [ihLen]
        simp

/-- Reading every position of a list in order reproduces the list. -/
theorem map_getD_range (l : List α) (d : α) :
    (List.range l.length).map (fun i => l.getD i d) = l := by
  induction l with
  | nil => rfl
  | cons x t ih =>
    rw [List.length_cons, List.range_succ_eq_map, List.map_cons,
      List.map_map]
    have hcomp : ((fun i => (x :: t).getD i d) ∘ Nat.succ)
        = fun i => t.getD i d := by
      funext i
      simp [List.getD_cons_succ]
    rw [hcomp, ih]
    simp [List.getD_cons_zero]

/-- C7: `calculatePlayerRanks` produces the standard competition ranking
by descending hand count — each player's rank is 1 plus the number of
players holding strictly more cards, so ties share the better rank and the
following ranks are skipped.  Hand counts are non-negative in every game. -/
theorem ranking_is_competition (cards : List Int)
    (hnn : ∀ x ∈ cards, 0 ≤ x) :
    (calculatePlayerRanks cards).length = cards.length ∧
    ∀ i, i < cards.length →
      (calculatePlayerRanks cards).getD i 0 =
        1 + cards.countP (fun x => decide (cards.getD i 0 < x)) := by
  unfold calculatePlayerRanks
  simp only
  have hperm : ((List.range cards.length).map
        (fun i => (i, cards.getD i 0))).mergeSort
        (fun a b => decide (b.2 ≤ a.2)) |>.Perm
      ((List.range cards.length).map (fun i => (i, cards.getD i 0))) :=
    List.mergeSort_perm _ _
  set infos := (List.range cards.length).map (fun i => (i, cards.getD i 0))
    with hinfos
  set sorted := infos.mergeSort (fun a b => decide (b.2 ≤ a.2))
    with hsorted_def
  have hpair : List.Pairwise (fun a b : Nat × Int => b.2 ≤ a.2) sorted := by
    have hs := @List.sorted_mergeSort (Nat × Int)
      (fun a b : Nat × Int => decide (b.2 ≤ a.2))
      (fun a b c hab hbc => by
        simp only [decide_eq_true_eq] at hab hbc ⊢
        omega)
      (fun a b => by
        simp only [Bool.or_eq_true, decide_eq_true_eq]
        omega)
      infos
    exact hs.imp (by
      intro a b h
      simpa using h)
  have hfstinfos : infos.map Prod.fst = List.range cards.length := by
    rw [hinfos, List.map_map]
    have hid : (Prod.fst ∘ fun i => (i, cards.getD i 0)) = id := rfl
    rw [hid, List.map_id]
  have hfst : (sorted.map Prod.fst).Perm (List.range cards.length) := by
    rw [← hfstinfos]
    exact hperm.map Prod.fst
  have hnod : (sorted.map Prod.fst).Nodup :=
    hfst.nodup_iff.mpr (List.nodup_range cards.length)
  have hbounds : ∀ q ∈ sorted,
      q.1 < ((List.range cards.length).map (fun i => i + 1)).length := by
    intro q hq
    have h1 : q.1 ∈ sorted.map Prod.fst := List.mem_map.mpr ⟨q, hq, rfl⟩
    have h2 := hfst.mem_iff.mp h1
    rw [List.length_map, List.length_range]
    exact List.mem_range.mp h2
  have hpos : ∀ x ∈ sorted, 0 ≤ x.2 := by
    intro x hx
    have hxi : x ∈ infos := hperm.mem_iff.mp hx
    rw [hinfos] at hxi
    obtain ⟨i, hi, rfl⟩ := List.mem_map.mp hxi
    have hin := List.mem_range.mp hi
    have hm : cards.getD i 0 ∈ cards := by
      rw [List.getD_eq_getElem _ _ hin]
      exact List.getElem_mem hin
    exact hnn _ hm
  have hmain := rank_fold_spec sorted []
    ((List.range cards.length).map (fun i => i + 1)) 1 (-1)
    (by simpa using hpair) (by simpa using hnod) hbounds
    (Or.inl ⟨rfl, rfl, rfl, hpos⟩)
  obtain ⟨hrank, _, hlen⟩ := hmain
  have henum : sorted.enum = List.enumFrom (List.length ([] : List (Nat × Int)))
      sorted := rfl
  constructor
  · rw [henum, hlen, List.length_map, List.length_range]
  · intro i hi
    have hqmem : (i, cards.getD i 0) ∈ sorted := by
      apply hperm.mem_iff.mpr
      rw [hinfos]
      exact List.mem_map.mpr ⟨i, List.mem_range.mpr hi, rfl⟩
    have hval := hrank (i, cards.getD i 0) hqmem
    rw [List.nil_append] at hval
    rw [henum, hval]
    have hcp1 : sorted.countP
          (fun y => decide ((i, cards.getD i 0).2 < y.2))
        = infos.countP (fun y => decide ((i, cards.getD i 0).2 < y.2)) :=
      hperm.countP_eq _
    rw [hcp1, hinfos, List.countP_map]
    have hcp2 : ((fun y : Nat × Int => decide ((i, cards.getD i 0).2 < y.2)) ∘
          fun i => (i, cards.getD i 0))
        = fun j => decide (cards.getD i 0 < cards.getD j 0) := rfl
    rw [hcp2]
    have hcp3 : (List.range cards.length).countP
          (fun j => decide (cards.getD i 0 < cards.getD j 0))
        = ((List.range cards.length).map (fun j => cards.getD j 0)).countP
            (fun x => decide (cards.getD i 0 < x)) := by
      rw [List.countP_map]
      rfl
    rw [hcp3, map_getD_range]

/-- Witness for C7 at hands [3, 7, 7, 1], whose ranks are [3, 1, 1, 4]. -/
theorem ranking_is_competition_witness :
    (calculatePlayerRanks [3, 7, 7, 1]).length =
      ([3, 7, 7, 1] : List Int).length ∧
    (calculatePlayerRanks [3, 7, 7, 1]).getD 0 0 =
      1 + ([3, 7, 7, 1] : List Int).countP
        (fun x => decide (([3, 7, 7, 1] : List Int).getD 0 0 < x)) :=
  ⟨(ranking_is_competition [3, 7, 7, 1] (by decide)).1,
   (ranking_is_competition [3, 7, 7, 1] (by decide)).2 0 (by decide)⟩

/-! ### C6 — wrong-slap penalty -/

/-- Effect of the transfer loop on a receiver list of in-range seats,
none of them the slapper, whose length the slapper's hand covers: the
slapper loses one card per receiver, each receiver gains exactly one card
and is marked in `cardGivenTo`, and every other seat is untouched. -/
theorem distribute_fold_spec (p : Nat) :
    ∀ (rs : List Nat) (cards : List Nat) (given : List Bool),
      rs.Nodup → (∀ r ∈ rs, r < cards.length ∧ r ≠ p) →
      p < cards.length → rs.length ≤ cards.getD p 0 →
      given.length = cards.length →
      (rs.foldl (distributeStep p) (cards, given)).1.getD p 0
          = cards.getD p 0 - rs.length ∧
      (∀ i ∈ rs,
        (rs.foldl (distributeStep p) (cards, given)).1.getD i 0
            = cards.getD i 0 + 1 ∧
        (rs.foldl (distributeStep p) (cards, given)).2.getD i false = true) ∧
      (∀ i, i ∉ rs → i ≠ p →
        (rs.foldl (distributeStep p) (cards, given)).1.getD i 0
            = cards.getD i 0 ∧
        (rs.foldl (distributeStep p) (cards, given)).2.getD i false
            = given.getD i false) ∧
      (rs.foldl (distributeStep p) (cards, given)).2.getD p false
          = given.getD p false ∧
      (rs.foldl (distributeStep p) (cards, given)).1.length = cards.length ∧
      (rs.foldl (distributeStep p) (cards, given)).2.length = given.length := by
  intro rs
  induction rs with
  | nil =>
    intro cards given _ _ _ _ _
    exact ⟨by simp, fun i hi => absurd hi (List.not_mem_nil i),
      fun i _ _ => ⟨rfl, rfl⟩, rfl, rfl, rfl⟩
  | cons r rest ih =>
    intro cards given hnd hbd hp hlen hgl
    have hr := hbd r (List.mem_cons_self r rest)
    have hguard : 0 < cards.getD p 0 := by
      have := hlen
      simp only [List.length_cons] at this
      omega
    have hstep : distributeStep p (cards, given) r
        = ((cards.set p (cards.getD p 0 - 1)).set r
            ((cards.set p (cards.getD p 0 - 1)).getD r 0 + 1),
           given.set r true) := by
      unfold distributeStep
      rw [if_pos hguard]
    have hfold : (r :: rest).foldl (distributeStep p) (cards, given)
        = rest.foldl (distributeStep p) (distributeStep p (cards, given) r) :=
      rfl
    set cards1 := (cards.set p (cards.getD p 0 - 1)).set r
      ((cards.set p (cards.getD p 0 - 1)).getD r 0 + 1) with hc1
    set given1 := given.set r true with hg1
    have hlen1 : cards1.length = cards.length := by simp [hc1]
    have hcards1_p : cards1.getD p 0 = cards.getD p 0 - 1 := by
      rw [hc1, getD_set_cases, if_neg (fun hcon => hr.2 hcon.1),
        getD_set_cases, if_pos ⟨rfl, hp⟩]
    have hcards1_r : cards1.getD r 0 = cards.getD r 0 + 1 := by
      rw [hc1, getD_set_cases, if_pos ⟨rfl, by simpa using hr.1⟩,
        getD_set_cases, if_neg (fun hcon => hr.2 hcon.1.symm)]
    have hcards1_other : ∀ i, i ≠ r → i ≠ p → cards1.getD i 0
        = cards.getD i 0 := by
      intro i hir hip
      rw [hc1, getD_set_cases, if_neg (fun hcon => hir hcon.1.symm),
        getD_set_cases, if_neg (fun hcon => hip hcon.1.symm)]
    have hrnotin : r ∉ rest := (List.nodup_cons.mp hnd).1
    have ihout := ih cards1 given1 (List.nodup_cons.mp hnd).2
      (fun r' hr' => by
        have h := hbd r' (List.mem_cons_of_mem r hr')
        refine ⟨?_, h.2⟩
        rw [hlen1]
        exact h.1)
      (by rw [hlen1]; exact hp)
      (by
        rw [hcards1_p]
        simp only [List.length_cons] at hlen
        omega)
      (by rw [hlen1, hg1, List.length_set]; exact hgl)
    obtain ⟨ihp, ihin, ihout', ihgp, ihlc, ihlg⟩ := ihout
    rw [hfold, hstep]
    refine ⟨?_, ?_, ?_, ?_, ?_, ?_⟩
    · rw [ihp, hcards1_p]
      simp only [List.length_cons]
      omega
    · intro i hi
      rcases List.mem_cons.mp hi with h | h
      · subst h
        have h1 := ihout' i hrnotin hr.2
        rw [h1.1, h1.2, hcards1_r, hg1, getD_set_cases,
          if_pos ⟨rfl, by rw [hgl]; exact hr.1⟩]
        exact ⟨rfl, rfl⟩
      · have h1 := ihin i h
        have hir : i ≠ r := fun hcon => hrnotin (hcon ▸ h)
        rw [h1.1, h1.2, hcards1_other i hir
          (hbd i (List.mem_cons_of_mem r h)).2]
        exact ⟨rfl, rfl⟩
    · intro i hi hip
      have hir : i ≠ r := fun hcon => hi (hcon ▸ List.mem_cons_self r rest)
      have hirest : i ∉ rest := fun hcon => hi (List.mem_cons_of_mem r hcon)
      have h1 := ihout' i hirest hip
      rw [h1.1, h1.2, hcards1_other i hir hip, hg1, getD_set_cases,
        if_neg (by exact fun hcon => hir hcon.1.symm)]
      exact ⟨rfl, rfl⟩
    · rw [ihgp, hg1, getD_set_cases,
        if_neg (by exact fun hcon => hr.2 hcon.1)]
    · rw [ihlc, hlen1]
    · rw [ihlg, hg1]
      simp

/-- Reading the choice function inside its range. -/
theorem toChoice_lt (m : Nat) (cv : ChoiceVec m) (i : Nat) (h : i < m) :
    toChoice m cv i = (cv ⟨i, h⟩).1 := by
  unfold toChoice
  rw [dif_pos h]

/-- The value `rand.Intn(i+1)` consumes from a canonical choice vector. -/
theorem toChoice_mod (m : Nat) (cv : ChoiceVec m) (i : Nat) (h : i < m) :
    toChoice m cv i % (i + 1) = (cv ⟨i, h⟩).1 := by
  rw [toChoice_lt m cv i h]
  exact Nat.mod_eq_of_lt (cv ⟨i, h⟩).2

/-- Length is preserved by a swap. -/
theorem swapL_length (l : List Nat) (i j : Nat) :
    (swapL l i j).length = l.length := by
  simp [swapL]

/-- Length is preserved by the Fisher-Yates loop. -/
theorem fisherYatesAux_length (c : Nat → Nat) :
    ∀ (n : Nat) (l : List Nat), (fisherYatesAux c n l).length = l.length := by
  intro n
  induction n with
  | zero => intro l; rfl
  | succ i ih =>
    intro l
    show (fisherYatesAux c i _).length = _
    rw [ih, swapL_length]

/-- The loop only reads the choice function at the steps it performs. -/
theorem fisherYatesAux_congr (c₁ c₂ : Nat → Nat) :
    ∀ (n : Nat) (l : List Nat), (∀ i, 1 ≤ i → i ≤ n → c₁ i = c₂ i) →
      fisherYatesAux c₁ n l = fisherYatesAux c₂ n l := by
  intro n
  induction n with
  | zero => intro l _; rfl
  | succ i ih =>
    intro l h
    show fisherYatesAux c₁ i (swapL l (i+1) (c₁ (i+1) % (i+2))) = _
    rw [h (i+1) (by omega) (by omega)]
    exact ih _ (fun t h1 h2 => h t h1 (by omega))

/-- A swap confined to the prefix commutes with appending an element. -/
theorem swapL_append (l : List Nat) (x : Nat) (i j : Nat)
    (hi : i < l.length) (hj : j < l.length) :
    swapL (l ++ [x]) i j = swapL l i j ++ [x] := by
  unfold swapL
  simp only
  rw [List.getD_append _ _ _ i hi, List.getD_append _ _ _ j hj,
    List.set_append, if_pos hi, List.set_append, if_pos (by simpa using hj)]

/-- The Fisher-Yates loop confined to the prefix commutes with appending. -/
theorem fisherYatesAux_append (c : Nat → Nat) :
    ∀ (n : Nat) (l : List Nat) (x : Nat), n < l.length →
      fisherYatesAux c n (l ++ [x]) = fisherYatesAux c n l ++ [x] := by
  intro n
  induction n with
  | zero => intro l x _; rfl
  | succ i ih =>
    intro l x h
    have hj : c (i+1) % (i+2) < l.length := by
      have hm : c (i+1) % (i+2) < i + 2 := Nat.mod_lt _ (by omega)
      omega
    show fisherYatesAux c i (swapL (l ++ [x]) (i+1) (c (i+1) % (i+2))) = _
    rw [swapL_append l x (i+1) _ h hj,
      ih _ x (by rw [swapL_length]; omega)]
    rfl

/-- After swapping the last position with position `j`, the last entry is
the old entry at `j`. -/
theorem swapL_last_getD (l : List Nat) (m j : Nat) (hl : l.length = m + 1)
    (hj : j < m + 1) :
    (swapL l m j).getD m 0 = l.getD j 0 := by
  unfold swapL
  simp only
  rw [getD_set_cases]
  by_cases hjm : j = m
  · subst hjm
    rw [if_pos ⟨rfl, by simp [hl]⟩]
  · rw [if_neg (fun hcon => hjm hcon.1), getD_set_cases,
      if_pos ⟨rfl, by omega⟩]

/-- Swapping the last position with `j` splits into a prefix and the old
entry at `j`. -/
theorem swapL_take_last (l : List Nat) (m j : Nat) (hl : l.length = m + 1)
    (hj : j < m + 1) :
    swapL l m j = (swapL l m j).take m ++ [l.getD j 0] := by
  have hlen : (swapL l m j).length = m + 1 := by rw [swapL_length, hl]
  conv_lhs => rw [← List.take_append_drop m (swapL l m j)]
  congr 1
  rw [List.drop_eq_getElem_cons (by omega),
    List.drop_eq_nil_of_le (by omega)]
  have := swapL_last_getD l m j hl hj
  rw [List.getD_eq_getElem _ 0 (by omega)] at this
  rw [this]

/-- Splitting of the shuffled-and-truncated prefix: the last random draw
chooses which element is banished to the last slot, and the remaining
draws shuffle the rest. -/
theorem shuffle_take_split (m : Nat) (hm : 1 ≤ m) (l : List Nat)
    (hl : l.length = m + 1) (k : Nat) (hk : k ≤ m) (cv : ChoiceVec (m + 1)) :
    (shuffleIntSlice (toChoice (m + 1) cv) l).take k
      = (shuffleIntSlice
          (toChoice m (fun i : Fin m => cv ⟨i.1, Nat.lt_succ_of_lt i.2⟩))
          ((swapL l m (cv ⟨m, Nat.lt_succ_self m⟩).1).take m)).take k := by
  obtain ⟨m', rfl⟩ : ∃ m', m = m' + 1 := ⟨m - 1, by omega⟩
  set c := toChoice (m' + 2) cv with hc
  set j := (cv ⟨m' + 1, Nat.lt_succ_self (m' + 1)⟩).1 with hjdef
  have hjlt : j < m' + 2 := (cv ⟨m' + 1, Nat.lt_succ_self (m' + 1)⟩).2
  have h1 : shuffleIntSlice c l = fisherYatesAux c (m' + 1) l := by
    unfold shuffleIntSlice
    rw [hl]
    rfl
  have h2 : fisherYatesAux c (m' + 1) l
      = fisherYatesAux c m' (swapL l (m' + 1) (c (m' + 1) % (m' + 2))) :=
    rfl
  have hcm : c (m' + 1) % (m' + 2) = j := by
    rw [hc]
    exact toChoice_mod (m' + 2) cv (m' + 1) (Nat.lt_succ_self (m' + 1))
  set L := (swapL l (m' + 1) j).take (m' + 1) with hL
  have hLlen : L.length = m' + 1 := by
    rw [hL, List.length_take, swapL_length, hl]
    omega
  have hsplit : swapL l (m' + 1) j = L ++ [l.getD j 0] :=
    swapL_take_last l (m' + 1) j hl hjlt
  have h3 : fisherYatesAux c m' (swapL l (m' + 1) j)
      = fisherYatesAux c m' L ++ [l.getD j 0] := by
    rw [hsplit]
    exact fisherYatesAux_append c m' L (l.getD j 0) (by omega)
  have h4 : (fisherYatesAux c m' L ++ [l.getD j 0]).take k
      = (fisherYatesAux c m' L).take k :=
    List.take_append_of_le_length (by rw [fisherYatesAux_length]; omega)
  have h5 : fisherYatesAux c m' L
      = fisherYatesAux
          (toChoice (m' + 1) (fun i : Fin (m' + 1) =>
            cv ⟨i.1, Nat.lt_succ_of_lt i.2⟩)) m' L := by
    apply fisherYatesAux_congr
    intro t h1t h2t
    rw [hc, toChoice_lt (m' + 2) cv t (by omega),
      toChoice_lt (m' + 1) _ t (by omega)]
  have h6 : fisherYatesAux
        (toChoice (m' + 1) (fun i : Fin (m' + 1) =>
          cv ⟨i.1, Nat.lt_succ_of_lt i.2⟩)) m' L
      = shuffleIntSlice
          (toChoice (m' + 1) (fun i : Fin (m' + 1) =>
            cv ⟨i.1, Nat.lt_succ_of_lt i.2⟩)) L := by
    unfold shuffleIntSlice
    rw [hLlen]
    rfl
  rw [h1, h2, hcm, h3, h4, h5, h6]

/-- Splitting a choice vector of size `m + 1` into its final draw and the
vector of the earlier draws. -/
def choiceSplit (m : Nat) : ChoiceVec (m + 1) ≃ Fin (m + 1) × ChoiceVec m where
  toFun cv := (cv ⟨m, Nat.lt_succ_self m⟩,
    fun i => cv ⟨i.1, Nat.lt_succ_of_lt i.2⟩)
  invFun jr i :=
    if h : i.1 < m then jr.2 ⟨i.1, h⟩
    else Fin.cast (congrArg Nat.succ
      (Nat.le_antisymm (Nat.le_of_not_lt h) (Nat.lt_succ_iff.mp i.2))) jr.1
  left_inv := by
    intro cv
    funext i
    by_cases h : i.1 < m
    · simp only [dif_pos h]
    · simp only [dif_neg h]
      have h2 : m = i.1 :=
        Nat.le_antisymm (Nat.le_of_not_lt h) (Nat.lt_succ_iff.mp i.2)
      have h3 : (⟨m, Nat.lt_succ_self m⟩ : Fin (m + 1)) = i := Fin.ext h2
      subst h3
      apply Fin.ext
      rw [Fin.coe_cast]
  right_inv := by
    intro jr
    refine Prod.ext ?_ ?_
    · simp only
      rw [dif_neg (lt_irrefl m)]
      apply Fin.ext
      rw [Fin.coe_cast]
    · funext i
      simp only
      rw [dif_pos i.2]

/-- Decomposition of the selection count over the final draw: summing over
which element the last swap banishes to the dead last slot. -/
theorem fyCountM_split (m : Nat) (hm : 1 ≤ m) (l : List Nat)
    (hl : l.length = m + 1) (k : Nat) (hk : k ≤ m) (S : Finset Nat) :
    fyCountM (m + 1) l k S
      = ∑ j : Fin (m + 1), fyCountM m ((swapL l m j.1).take m) k S := by
  unfold fyCountM
  have hiff : ∀ cv : ChoiceVec (m + 1),
      ((shuffleIntSlice (toChoice (m + 1) cv) l).take k).toFinset = S ↔
        ((shuffleIntSlice (toChoice m ((choiceSplit m cv).2))
            ((swapL l m ((choiceSplit m cv).1).1).take m)).take k).toFinset
          = S := by
    intro cv
    rw [shuffle_take_split m hm l hl k hk cv]
    constructor
    · intro h; exact h
    · intro h; exact h
  have e1 : {cv : ChoiceVec (m + 1) //
        ((shuffleIntSlice (toChoice (m + 1) cv) l).take k).toFinset = S} ≃
      {x : Fin (m + 1) × ChoiceVec m //
        ((shuffleIntSlice (toChoice m x.2)
          ((swapL l m x.1.1).take m)).take k).toFinset = S} :=
    Equiv.subtypeEquiv (choiceSplit m) hiff
  have e2 : {x : Fin (m + 1) × ChoiceVec m //
        ((shuffleIntSlice (toChoice m x.2)
          ((swapL l m x.1.1).take m)).take k).toFinset = S} ≃
      (j : Fin (m + 1)) × {r : ChoiceVec m //
        ((shuffleIntSlice (toChoice m r)
          ((swapL l m j.1).take m)).take k).toFinset = S} :=
    Equiv.subtypeProdEquivSigmaSubtype
      (fun (j : Fin (m + 1)) (r : ChoiceVec m) =>
        ((shuffleIntSlice (toChoice m r)
          ((swapL l m j.1).take m)).take k).toFinset = S)
  calc Fintype.card {cv : ChoiceVec (m + 1) //
        ((shuffleIntSlice (toChoice (m + 1) cv) l).take k).toFinset = S}
      = Fintype.card ((j : Fin (m + 1)) × {r : ChoiceVec m //
          ((shuffleIntSlice (toChoice m r)
            ((swapL l m j.1).take m)).take k).toFinset = S}) :=
        Fintype.card_congr (e1.trans e2)
    _ = ∑ j : Fin (m + 1), Fintype.card {r : ChoiceVec m //
          ((shuffleIntSlice (toChoice m r)
            ((swapL l m j.1).take m)).take k).toFinset = S} :=
        Fintype.card_sigma
    _ = ∑ j : Fin (m + 1), fyCountM m ((swapL l m j.1).take m) k S := rfl

/-- The selected set is always a subset of the shuffled list's elements. -/
theorem sel_subset_toFinset (m : Nat) (l : List Nat) (k : Nat)
    (cv : ChoiceVec m) :
    ((shuffleIntSlice (toChoice m cv) l).take k).toFinset ⊆ l.toFinset := by
  intro x hx
  have h1 := List.mem_toFinset.mp hx
  have h2 := (List.take_sublist k _).subset h1
  exact List.mem_toFinset.mpr ((shuffleIntSlice_perm _ l).subset h2)

/-- No choice vector can select a set that is not made of the list's
elements. -/
theorem fyCountM_eq_zero (m : Nat) (l : List Nat) (k : Nat) (S : Finset Nat)
    (h : ¬ S ⊆ l.toFinset) : fyCountM m l k S = 0 := by
  unfold fyCountM
  rw [Fintype.card_eq_zero_iff]
  exact ⟨fun x => h (x.2 ▸ sel_subset_toFinset m l k x.1)⟩

/-- When every choice vector selects exactly `S`, the count equals the
size of the whole choice space. -/
theorem fyCountM_eq_total (m : Nat) (l : List Nat) (k : Nat) (S : Finset Nat)
    (hall : ∀ cv : ChoiceVec m,
      ((shuffleIntSlice (toChoice m cv) l).take k).toFinset = S) :
    fyCountM m l k S = Fintype.card (ChoiceVec m) :=
  Fintype.card_congr (Equiv.subtypeUnivEquiv hall)

/-- Elements of the prefix that remains after the last swap: everything
except the banished entry. -/
theorem take_swapL_toFinset (l : List Nat) (m j : Nat)
    (hl : l.length = m + 1) (hnd : l.Nodup) (hj : j < m + 1) :
    ((swapL l m j).take m).toFinset = l.toFinset.erase (l.getD j 0) := by
  have hperm := swapL_perm l m j (by omega) (by omega)
  have hsplit := swapL_take_last l m j hl hj
  have hnd2 : (swapL l m j).Nodup := (hperm.nodup_iff).mpr hnd
  have hx : l.getD j 0 ∉ (swapL l m j).take m := by
    intro hmem
    rw [hsplit] at hnd2
    rcases List.nodup_append.mp hnd2 with ⟨_, _, hdisj⟩
    exact hdisj hmem (List.mem_singleton_self _)
  have h1 : l.toFinset
      = insert (l.getD j 0) ((swapL l m j).take m).toFinset := by
    rw [← List.toFinset_eq_of_perm _ _ hperm]
    conv_lhs => rw [hsplit]
    rw [List.toFinset_append]
    simp [Finset.union_comm, Finset.insert_eq]
  rw [h1, Finset.erase_insert (by simpa [List.mem_toFinset] using hx)]

/-- Under a duplicate-free list, the positions whose entry lies in `S` are
as many as `S`'s elements. -/
theorem card_positions_mem (l : List Nat) (m : Nat) (hl : l.length = m + 1)
    (hnd : l.Nodup) (S : Finset Nat) (hS : S ⊆ l.toFinset) :
    (Finset.univ.filter
      (fun j : Fin (m + 1) => l.getD j.1 0 ∈ S)).card = S.card := by
  apply Finset.card_bij (fun j _ => l.getD j.1 0)
  · intro j hj
    exact (Finset.mem_filter.mp hj).2
  · intro j₁ hj₁ j₂ hj₂ he
    have hb₁ : j₁.1 < l.length := by omega
    have hb₂ : j₂.1 < l.length := by omega
    rw [List.getD_eq_getElem _ _ hb₁, List.getD_eq_getElem _ _ hb₂] at he
    have hmk := (List.Nodup.get_inj_iff hnd).mp he
    have hval : (j₁ : Nat) = (j₂ : Nat) := by
      have h' := congrArg Fin.val hmk
      simpa using h'
    exact Fin.ext hval
  · intro x hx
    have hmem : x ∈ l := List.mem_toFinset.mp (hS hx)
    obtain ⟨n, hn, hget⟩ := List.mem_iff_getElem.mp hmem
    have hval : l.getD n 0 = x := by
      rw [List.getD_eq_getElem _ _ hn]
      exact hget
    refine ⟨⟨n, by omega⟩, Finset.mem_filter.mpr ⟨Finset.mem_univ _, ?_⟩, ?_⟩
    · show l.getD n 0 ∈ S
      rw [hval]
      exact hx
    · show l.getD n 0 = x
      exact hval

/-- The number of choice vectors selecting a given set depends only on
the set's size (and the list's length): the selected k-subset is uniform.
-/
theorem fyCountM_uniform :
    ∀ (n : Nat) (l₁ l₂ : List Nat) (k : Nat) (S T : Finset Nat),
      l₁.length = n → l₂.length = n → l₁.Nodup → l₂.Nodup →
      S ⊆ l₁.toFinset → T ⊆ l₂.toFinset → S.card = k → T.card = k →
      k ≤ n → fyCountM n l₁ k S = fyCountM n l₂ k T := by
  intro n
  induction n with
  | zero =>
    intro l₁ l₂ k S T h1 h2 _ _ _ _ hSc hTc hk
    have hk0 : k = 0 := by omega
    subst hk0
    obtain rfl : S = ∅ := Finset.card_eq_zero.mp hSc
    obtain rfl : T = ∅ := Finset.card_eq_zero.mp hTc
    rw [fyCountM_eq_total _ _ _ _ (fun cv => by simp),
      fyCountM_eq_total _ _ _ _ (fun cv => by simp)]
  | succ m ih =>
    intro l₁ l₂ k S T h1 h2 hnd1 hnd2 hS hT hSc hTc hk
    by_cases hk0 : k = 0
    · subst hk0
      obtain rfl : S = ∅ := Finset.card_eq_zero.mp hSc
      obtain rfl : T = ∅ := Finset.card_eq_zero.mp hTc
      rw [fyCountM_eq_total _ _ _ _ (fun cv => by simp),
        fyCountM_eq_total _ _ _ _ (fun cv => by simp)]
    · by_cases hkn : k = m + 1
      · have hSfull : S = l₁.toFinset := by
          apply Finset.eq_of_subset_of_card_le hS
          rw [List.toFinset_card_of_nodup hnd1, h1, hSc, hkn]
        have hTfull : T = l₂.toFinset := by
          apply Finset.eq_of_subset_of_card_le hT
          rw [List.toFinset_card_of_nodup hnd2, h2, hTc, hkn]
        have hall : ∀ (l : List Nat), l.length = m + 1 →
            ∀ cv : ChoiceVec (m + 1),
            ((shuffleIntSlice (toChoice (m + 1) cv) l).take k).toFinset
              = l.toFinset := by
          intro l hl cv
          have hlen : (shuffleIntSlice (toChoice (m + 1) cv) l).length
              = m + 1 := by
            unfold shuffleIntSlice
            rw [fisherYatesAux_length, hl]
          rw [List.take_of_length_le (by omega),
            List.toFinset_eq_of_perm _ _ (shuffleIntSlice_perm _ l)]
        rw [hSfull, hTfull,
          fyCountM_eq_total _ _ _ _ (hall l₁ h1),
          fyCountM_eq_total _ _ _ _ (hall l₂ h2)]
      · have hm1 : 1 ≤ m := by omega
        have hkm : k ≤ m := by omega
        rw [fyCountM_split m hm1 l₁ h1 k hkm S,
          fyCountM_split m hm1 l₂ h2 k hkm T]
        have hterm : ∀ (l : List Nat), l.length = m + 1 → l.Nodup →
            ∀ (U : Finset Nat), U ⊆ l.toFinset → U.card = k →
            ∀ j : Fin (m + 1),
              fyCountM m ((swapL l m j.1).take m) k U
                = if l.getD j.1 0 ∈ U then 0
                  else fyCountM m (List.range m) k (Finset.range k) := by
          intro l hl hnd U hU hUc j
          by_cases hmem : l.getD j.1 0 ∈ U
          · rw [if_pos hmem]
            apply fyCountM_eq_zero
            rw [take_swapL_toFinset l m j.1 hl hnd j.2]
            intro hsub
            exact (Finset.mem_erase.mp (hsub hmem)).1 rfl
          · rw [if_neg hmem]
            apply ih
            · rw [List.length_take, swapL_length, hl]
              omega
            · exact List.length_range m
            · have hjlt : j.1 < l.length := by
                rw [hl]
                exact j.2
              have hswnd : (swapL l m j.1).Nodup :=
                (swapL_perm l m j.1 (by omega) hjlt).nodup_iff.mpr hnd
              exact List.Nodup.sublist (List.take_sublist m _) hswnd
            · exact List.nodup_range m
            · rw [take_swapL_toFinset l m j.1 hl hnd j.2]
              exact Finset.subset_erase.mpr ⟨hU, hmem⟩
            · intro x hx
              rw [List.mem_toFinset, List.mem_range]
              have := Finset.mem_range.mp hx
              omega
            · exact hUc
            · exact Finset.card_range k
            · exact hkm
        have hsum : ∀ (l : List Nat), l.length = m + 1 → l.Nodup →
            ∀ (U : Finset Nat), U ⊆ l.toFinset → U.card = k →
            (∑ j : Fin (m + 1), fyCountM m ((swapL l m j.1).take m) k U)
              = (m + 1 - k) *
                  fyCountM m (List.range m) k (Finset.range k) := by
          intro l hl hnd U hU hUc
          rw [Finset.sum_congr rfl (fun j _ => hterm l hl hnd U hU hUc j)]
          rw [Finset.sum_ite]
          rw [Finset.sum_const, Finset.sum_const]
          have hcard := card_positions_mem l m hl hnd U hU
          have hsplit := @Finset.filter_card_add_filter_neg_card_eq_card
            (Fin (m + 1)) Finset.univ
            (fun j : Fin (m + 1) => l.getD j.1 0 ∈ U) _ _
          rw [hcard] at hsplit
          simp only [Finset.card_univ, Fintype.card_fin] at hsplit
          rw [smul_zero, zero_add, smul_eq_mul]
          congr 1
          omega
        rw [hsum l₁ h1 hnd1 S hS hSc, hsum l₂ h2 hnd2 T hT hTc]

/-- Reading a replicated list. -/
theorem getD_replicate_cases (n : Nat) (a d : α) (i : Nat) :
    (List.replicate n a).getD i d = if i < n then a else d := by
  rw [List.getD_eq_getElem?_getD, List.getElem?_replicate]
  by_cases h : i < n
  · rw [if_pos h, if_pos h]
    rfl
  · rw [if_neg h, if_neg h]
    rfl

/-- Length of the shuffled list. -/
theorem shuffleIntSlice_length (c : Nat → Nat) (l : List Nat) :
    (shuffleIntSlice c l).length = l.length := by
  unfold shuffleIntSlice
  rw [fisherYatesAux_length]

/-- The other-seats list has one entry per seat except the slapper. -/
theorem length_filter_ne (n p : Nat) (hp : p < n) :
    ((List.range n).filter (fun i => i ≠ p)).length = n - 1 := by
  induction n with
  | zero => omega
  | succ k ih =>
    rw [List.range_succ, List.filter_append]
    by_cases hpk : p = k
    · subst hpk
      have h1 : (List.range p).filter (fun i => i ≠ p) = List.range p := by
        rw [List.filter_eq_self]
        intro a ha
        simp only [decide_eq_true_eq, ne_eq]
        have := List.mem_range.mp ha
        omega
      have h2 : [p].filter (fun i => i ≠ p) = [] := by
        simp
      rw [h1, h2, List.append_nil, List.length_range]
      omega
    · have hp' : p < k := by omega
      have h2 : [k].filter (fun i => i ≠ p) = [k] := by
        have hkp : ¬ k = p := fun h => hpk h.symm
        simp [hkp]
      rw [h2, List.length_append, ih hp']
      simp only [List.length_singleton]
      omega

/-- The receivers settled on in the shortage case are distinct in-range
seats other than the slapper, exactly as many as the slapper's hand. -/
theorem chosenReceivers_spec (c : Nat → Nat) (n p k : Nat) (hp : p < n)
    (hk : k ≤ n - 1) :
    (chosenReceivers c n p k).Nodup ∧
    (chosenReceivers c n p k).length = k ∧
    ∀ x ∈ chosenReceivers c n p k, x < n ∧ x ≠ p := by
  unfold chosenReceivers
  refine ⟨?_, ?_, ?_⟩
  · have h1 : ((List.range n).filter (fun i => i ≠ p)).Nodup :=
      (List.nodup_range n).filter _
    have h2 : (shuffleIntSlice c ((List.range n).filter
        (fun i => i ≠ p))).Nodup :=
      (shuffleIntSlice_perm c _).nodup_iff.mpr h1
    exact List.Nodup.sublist (List.take_sublist k _) h2
  · rw [List.length_take, shuffleIntSlice_length, length_filter_ne n p hp]
    omega
  · intro x hx
    exact distribute_receivers_bound c n p k x hx

/-- C6: the wrong-slap penalty.  With `N` seats and slapper `p` holding
`hand` cards: `cardGivenTo` has length `N` and is false at `p`; when
`hand ≥ N - 1` every other seat is marked and gains exactly one card and
the slapper keeps `hand - (N - 1)`; otherwise the slapper's hand drops to
0 and the marked seats are exactly the members of `chosenReceivers` — a
duplicate-free list of `hand` seats other than `p` drawn by shuffling the
other seats — each gaining one card, and the drawn subset is uniform: for
each size-`hand` subset of the other seats, the number of random choice
vectors selecting it is the same. -/
theorem wrong_bell_distribution (c : Nat → Nat) (r : RoomS) (p : Nat)
    (hp : p < r.playerCards.length) :
    (DistributeCardsFromPlayer c r p).2.length = r.playerCards.length ∧
    (DistributeCardsFromPlayer c r p).2.getD p false = false ∧
    (r.playerCards.length - 1 ≤ r.playerCards.getD p 0 →
      (∀ i, i < r.playerCards.length → i ≠ p →
        (DistributeCardsFromPlayer c r p).2.getD i false = true ∧
        (DistributeCardsFromPlayer c r p).1.playerCards.getD i 0
          = r.playerCards.getD i 0 + 1) ∧
      (DistributeCardsFromPlayer c r p).1.playerCards.getD p 0
        = r.playerCards.getD p 0 - (r.playerCards.length - 1)) ∧
    (r.playerCards.getD p 0 < r.playerCards.length - 1 →
      (DistributeCardsFromPlayer c r p).1.playerCards.getD p 0 = 0 ∧
      (chosenReceivers c r.playerCards.length p
          (r.playerCards.getD p 0)).Nodup ∧
      (chosenReceivers c r.playerCards.length p
          (r.playerCards.getD p 0)).length = r.playerCards.getD p 0 ∧
      (∀ x ∈ chosenReceivers c r.playerCards.length p
          (r.playerCards.getD p 0), x < r.playerCards.length ∧ x ≠ p) ∧
      (∀ i, i < r.playerCards.length → i ≠ p →
        ((DistributeCardsFromPlayer c r p).2.getD i false = true ↔
          i ∈ chosenReceivers c r.playerCards.length p
            (r.playerCards.getD p 0)) ∧
        ((DistributeCardsFromPlayer c r p).2.getD i false = true →
          (DistributeCardsFromPlayer c r p).1.playerCards.getD i 0
            = r.playerCards.getD i 0 + 1) ∧
        ((DistributeCardsFromPlayer c r p).2.getD i false = false →
          (DistributeCardsFromPlayer c r p).1.playerCards.getD i 0
            = r.playerCards.getD i 0)) ∧
      (∀ S T : Finset Nat,
        S ⊆ ((List.range r.playerCards.length).filter
          (fun i => i ≠ p)).toFinset →
        T ⊆ ((List.range r.playerCards.length).filter
          (fun i => i ≠ p)).toFinset →
        S.card = r.playerCards.getD p 0 →
        T.card = r.playerCards.getD p 0 →
        fyCount ((List.range r.playerCards.length).filter (fun i => i ≠ p))
            (r.playerCards.getD p 0) S
          = fyCount ((List.range r.playerCards.length).filter
              (fun i => i ≠ p)) (r.playerCards.getD p 0) T)) := by
  have h0 : ¬ (r.playerCards.length = 0 ∨ r.playerCards.length ≤ p) := by
    omega
  have hlen0 : ((List.range r.playerCards.length).filter
      (fun i => i ≠ p)).length = r.playerCards.length - 1 :=
    length_filter_ne r.playerCards.length p hp
  have hnodup0 : ((List.range r.playerCards.length).filter
      (fun i => i ≠ p)).Nodup := (List.nodup_range _).filter _
  have hbound0 : ∀ x ∈ (List.range r.playerCards.length).filter
      (fun i => i ≠ p), x < r.playerCards.length ∧ x ≠ p := by
    intro x hx
    have h := List.mem_filter.mp hx
    exact ⟨List.mem_range.mp h.1, by simpa using h.2⟩
  have hD : DistributeCardsFromPlayer c r p
      = ({ r with playerCards :=
            ((if r.playerCards.getD p 0 <
                ((List.range r.playerCards.length).filter
                  (fun i => i ≠ p)).length
              then (shuffleIntSlice c ((List.range r.playerCards.length).filter
                (fun i => i ≠ p))).take (r.playerCards.getD p 0)
              else (List.range r.playerCards.length).filter
                (fun i => i ≠ p)).foldl (distributeStep p)
              (r.playerCards,
                List.replicate r.playerCards.length false)).1 },
         ((if r.playerCards.getD p 0 <
              ((List.range r.playerCards.length).filter
                (fun i => i ≠ p)).length
            then (shuffleIntSlice c ((List.range r.playerCards.length).filter
              (fun i => i ≠ p))).take (r.playerCards.getD p 0)
            else (List.range r.playerCards.length).filter
              (fun i => i ≠ p)).foldl (distributeStep p)
            (r.playerCards,
              List.replicate r.playerCards.length false)).2) := by
    unfold DistributeCardsFromPlayer
    rw [if_neg h0]
  by_cases hshort : r.playerCards.getD p 0 <
      ((List.range r.playerCards.length).filter (fun i => i ≠ p)).length
  · -- shortage: shuffled-and-truncated receivers
    have hhand : r.playerCards.getD p 0 < r.playerCards.length - 1 := by
      omega
    have hrs : (if r.playerCards.getD p 0 <
          ((List.range r.playerCards.length).filter
            (fun i => i ≠ p)).length
        then (shuffleIntSlice c ((List.range r.playerCards.length).filter
          (fun i => i ≠ p))).take (r.playerCards.getD p 0)
        else (List.range r.playerCards.length).filter (fun i => i ≠ p))
        = chosenReceivers c r.playerCards.length p
            (r.playerCards.getD p 0) := by
      rw [if_pos hshort]
      rfl
    rw [hD, hrs]
    obtain ⟨hcnd, hclen, hcbd⟩ := chosenReceivers_spec c
      r.playerCards.length p (r.playerCards.getD p 0) hp (by omega)
    have hspec := distribute_fold_spec p
      (chosenReceivers c r.playerCards.length p (r.playerCards.getD p 0))
      r.playerCards (List.replicate r.playerCards.length false)
      hcnd hcbd hp (by rw [hclen]) (List.length_replicate _ _)
    obtain ⟨hps, hin, hout, hgp, hlc, hlg⟩ := hspec
    refine ⟨?_, ?_, ?_, ?_⟩
    · rw [hlg, List.length_replicate]
    · rw [hgp, getD_replicate_cases, if_pos hp]
    · intro hge
      omega
    · intro _
      refine ⟨by rw [hps, hclen]; omega, hcnd, hclen, hcbd, ?_, ?_⟩
      · intro i hi hip
        constructor
        · constructor
          · intro htrue
            by_contra hnotin
            have h1 := hout i hnotin hip
            rw [h1.2, getD_replicate_cases, if_pos hi] at htrue
            cases htrue
          · intro hmem
            exact (hin i hmem).2
        constructor
        · intro htrue
          by_cases hmem : i ∈ chosenReceivers c r.playerCards.length p
              (r.playerCards.getD p 0)
          · exact (hin i hmem).1
          · have h1 := hout i hmem hip
            rw [h1.2, getD_replicate_cases, if_pos hi] at htrue
            cases htrue
        · intro hfalse
          by_cases hmem : i ∈ chosenReceivers c r.playerCards.length p
              (r.playerCards.getD p 0)
          · rw [(hin i hmem).2] at hfalse
            cases hfalse
          · exact (hout i hmem hip).1
      · intro S T hS hT hSc hTc
        unfold fyCount
        rw [hlen0]
        exact fyCountM_uniform (r.playerCards.length - 1) _ _
          (r.playerCards.getD p 0) S T hlen0 hlen0 hnodup0 hnodup0
          hS hT hSc hTc (by omega)
  · -- no shortage: every other seat receives a card
    have hrs : (if r.playerCards.getD p 0 <
          ((List.range r.playerCards.length).filter
            (fun i => i ≠ p)).length
        then (shuffleIntSlice c ((List.range r.playerCards.length).filter
          (fun i => i ≠ p))).take (r.playerCards.getD p 0)
        else (List.range r.playerCards.length).filter (fun i => i ≠ p))
        = (List.range r.playerCards.length).filter (fun i => i ≠ p) := by
      rw [if_neg hshort]
    rw [hD, hrs]
    have hspec := distribute_fold_spec p
      ((List.range r.playerCards.length).filter (fun i => i ≠ p))
      r.playerCards (List.replicate r.playerCards.length false)
      hnodup0 hbound0 hp (by omega) (List.length_replicate _ _)
    obtain ⟨hps, hin, hout, hgp, hlc, hlg⟩ := hspec
    refine ⟨?_, ?_, ?_, ?_⟩
    · rw [hlg, List.length_replicate]
    · rw [hgp, getD_replicate_cases, if_pos hp]
    · intro _
      constructor
      · intro i hi hip
        have hmem : i ∈ (List.range r.playerCards.length).filter
            (fun i => i ≠ p) :=
          List.mem_filter.mpr ⟨List.mem_range.mpr hi, by simpa using hip⟩
        exact ⟨(hin i hmem).2, (hin i hmem).1⟩
      · rw [hps, hlen0]
    · intro hlt
      omega
/-- Witness for C6: in a four-seat room where the slapper holds one card,
the penalty marks exactly the chosen receivers, empties the slapper's
hand, and the returned vector has one entry per seat with false at the
slapper. -/
theorem wrong_bell_distribution_witness :
    0 < shortRoomW.playerCards.length ∧
    (DistributeCardsFromPlayer (fun _ => 0) shortRoomW 0).2.length
      = shortRoomW.playerCards.length ∧
    (DistributeCardsFromPlayer (fun _ => 0) shortRoomW 0).2.getD 0 false
      = false ∧
    (DistributeCardsFromPlayer
      (fun _ => 0) shortRoomW 0).1.playerCards.getD 0 0 = 0 :=
  ⟨by decide,
   (wrong_bell_distribution (fun _ => 0) shortRoomW 0 (by decide)).1,
   (wrong_bell_distribution (fun _ => 0) shortRoomW 0 (by decide)).2.1,
   ((wrong_bell_distribution (fun _ => 0) shortRoomW 0
      (by decide)).2.2.2 (by decide)).1⟩

end HalliGalli
